import Mathlib

/-!
# isucandar: limiter, worker and error log

A shallow embedding of `parallel/parallel.go`, `worker/worker.go` and
`failure/errors.go`, followed by the properties established about them.

Machine integers are modelled as `Int` with an explicit two's-complement wrap
(`wrap32`, `wrap64`) at every arithmetic operation of the source.
-/

namespace Parallel

/-- Two's-complement wrap of an integer into the range of Go's `int32`. -/
def wrap32 (x : Int) : Int := (x + 2147483648) % 4294967296 - 2147483648

/-- The values an `int32` variable can hold. -/
def inInt32 (x : Int) : Prop := -2147483648 ≤ x ∧ x ≤ 2147483647

instance (x : Int) : Decidable (inInt32 x) := by
  unfold inInt32; exact inferInstance

/-- The two error values declared in `parallel.go`. -/
inductive LimiterError
  | ErrLimiterClosed
  | ErrNegativeCount
deriving DecidableEq, Repr

/-- Control point of one call of `Do`, from just after its initial
`atomic.AddInt32(&l.count, 1)` until the admitted task has released its slot.
Each constructor is the point just before one atomic access of the source. -/
inductive Pc
  /-- head of the `for l.isRunning()` loop of `start`: about to load `closed` -/
  | loop
  /-- `closed` was read as `closedFalse`: about to evaluate `l.ctx.Err() == nil` -/
  | checkCtx
  /-- `isRunning` returned true: `isLimitKept` is about to load `limit` -/
  | loadLimit
  /-- `isLimitKept` has loaded `limit` and is about to load `count` -/
  | loadCount (limit : Int)
  /-- `isLimitKept` returned `(count, true)`: about to compare-and-swap -/
  | cas (count : Int)
  /-- `start` returned `ErrLimiterClosed`: about to `AddInt32(&l.count, -1)` -/
  | rollback
  /-- `Do` returned `ErrLimiterClosed` -/
  | rejected
  /-- `start` returned nil, `Do` spawned the goroutine and returned nil; `f`
  has not completed, the deferred `done` has not run -/
  | running
  /-- the deferred `done` has run and did not panic -/
  | finished
  /-- the deferred `done` has run and panicked with `ErrNegativeCount` -/
  | panicked
deriving DecidableEq, Repr

/-- The shared fields of `Parallel` together with the control points of all calls
of `Do` issued so far and the fact that a panic has aborted the process. -/
structure State where
  limit : Int
  count : Int
  closed : Bool
  /-- `l.ctx.Err() != nil`: the cancellation token has fired -/
  ctxDone : Bool
  /-- a goroutine has panicked with `ErrNegativeCount` -/
  crashed : Bool
  threads : List Pc
deriving DecidableEq, Repr

/-- `NewParallel(ctx, limit)` with a token that has not fired yet. -/
def NewParallel (limit : Int) : State :=
  { limit := limit, count := 0, closed := false, ctxDone := false, crashed := false,
    threads := [] }

/-- `CurrentLimit`. -/
def CurrentLimit (s : State) : Int := s.limit

/-- `Close`. -/
def Close (s : State) : State := { s with closed := true }

/-- `SetParallelism`. -/
def SetParallelism (s : State) (limit : Int) : State := { s with limit := limit }

/-- `AddParallelism`: `atomic.AddInt32` on the limit. -/
def AddParallelism (s : State) (limit : Int) : State :=
  { s with limit := wrap32 (s.limit + limit) }

/-- `isRunning`. -/
def isRunning (s : State) : Bool := (s.closed == false) && (s.ctxDone == false)

/-- The boolean computed by `isLimitKept` from the two values it loaded:
`limit < 1 || count < (limit*2)`, the product taken in `int32`. -/
def limitKept (limit count : Int) : Bool :=
  decide (limit < 1) || decide (count < wrap32 (limit * 2))

/-- `isLimitKept` evaluated on one snapshot of the state. -/
def isLimitKept (s : State) : Int × Bool := (s.count, limitKept s.limit s.count)

/-- `done`: subtracts 2 from the counter and panics with `ErrNegativeCount` when
the new value is negative. The boolean tells whether it panicked. -/
def done (s : State) : State × Bool :=
  let c := wrap32 (s.count - 2)
  if c < 0 then ({ s with count := c, crashed := true }, true)
  else ({ s with count := c }, false)

/-- Sets the control point of call `i`. -/
def setPc (s : State) (i : Nat) (pc : Pc) : State :=
  { s with threads := s.threads.set i pc }

/-- The next atomic step of the `i`-th call of `Do`; `none` when that call does
not exist or has nothing left to do. -/
def stepThread (s : State) (i : Nat) : Option State :=
  match s.threads[i]? with
  | none => none
  | some Pc.loop => some (if s.closed then setPc s i Pc.rollback else setPc s i Pc.checkCtx)
  | some Pc.checkCtx =>
      some (if s.ctxDone then setPc s i Pc.rollback else setPc s i Pc.loadLimit)
  | some Pc.loadLimit => some (setPc s i (Pc.loadCount s.limit))
  | some (Pc.loadCount limit) =>
      some (if limitKept limit s.count then setPc s i (Pc.cas s.count) else setPc s i Pc.loop)
  | some (Pc.cas count) =>
      some (if s.count = count then setPc { s with count := wrap32 (count + 1) } i Pc.running
            else setPc s i Pc.loop)
  | some Pc.rollback => some (setPc { s with count := wrap32 (s.count - 1) } i Pc.rejected)
  | some Pc.running =>
      some (setPc (done s).1 i (if (done s).2 then Pc.panicked else Pc.finished))
  | some Pc.rejected => none
  | some Pc.finished => none
  | some Pc.panicked => none

/-- What can happen next to a limiter. -/
inductive Action
  /-- a caller enters `Do` and performs `atomic.AddInt32(&l.count, 1)` -/
  | call
  /-- the `i`-th call of `Do` (or the task it started) takes its next step -/
  | thread (i : Nat)
  /-- `Close()` -/
  | close
  /-- the cancellation token fires -/
  | cancel
  /-- the goroutine of `NewParallel`, woken by the token, stores `closedTrue` -/
  | watcher
  /-- `SetParallelism(n)` -/
  | setParallelism (n : Int)
  /-- `AddParallelism(d)` -/
  | addParallelism (d : Int)
deriving DecidableEq, Repr

/-- One atomic step of the limiter; `none` when the action is not enabled. -/
def step (s : State) (a : Action) : Option State :=
  if s.crashed then none else
  match a with
  | Action.call =>
      some { s with count := wrap32 (s.count + 1), threads := s.threads ++ [Pc.loop] }
  | Action.thread i => stepThread s i
  | Action.close => some (Close s)
  | Action.cancel => some { s with ctxDone := true }
  | Action.watcher => if s.ctxDone then some { s with closed := true } else none
  | Action.setParallelism n => if inInt32 n then some (SetParallelism s n) else none
  | Action.addParallelism d => if inInt32 d then some (AddParallelism s d) else none

/-- Runs a schedule, one action after the other. -/
def run : State → List Action → Option State
  | s, [] => some s
  | s, a :: as =>
    match step s a with
    | some s' => run s' as
    | none => none

/-- A call that has added its first unit and has neither been admitted nor
returned. -/
def Pc.isPending : Pc → Bool
  | Pc.loop => true
  | Pc.checkCtx => true
  | Pc.loadLimit => true
  | Pc.loadCount _ => true
  | Pc.cas _ => true
  | Pc.rollback => true
  | _ => false

/-- A task that has been admitted and has not completed. -/
def Pc.isAdmitted : Pc → Bool
  | Pc.running => true
  | _ => false

/-- Number of pending calls of `Do`. -/
def pendingCount (s : State) : Nat := s.threads.countP Pc.isPending

/-- Number of tasks admitted and not yet completed. -/
def admittedCount (s : State) : Nat := s.threads.countP Pc.isAdmitted

/-- The schedule leaves the limit alone: it has no `SetParallelism` and no
`AddParallelism`. -/
def Action.keepsLimit : Action → Bool
  | Action.setParallelism _ => false
  | Action.addParallelism _ => false
  | _ => true

/-- No reservation overflow: the units held by pending calls and admitted
tasks fit the `int32` counter. -/
def fits (s : State) : Prop := (pendingCount s : Int) + 2 * admittedCount s ≤ 2147483647

instance (s : State) : Decidable (fits s) := by
  unfold fits; exact inferInstance

/-- The units held fit the counter in every state the schedule goes through. -/
def fitsAlong : State → List Action → Bool
  | s, [] => decide (fits s)
  | s, a :: as =>
    decide (fits s) && match step s a with
                       | some s' => fitsAlong s' as
                       | none => true

/-- What `start` has returned to the `i`-th call of `Do`, if it has: `some none`
is nil. -/
def startReturned (s : State) (i : Nat) : Option (Option LimiterError) :=
  match s.threads[i]? with
  | some Pc.running => some none
  | some Pc.rollback => some (some LimiterError.ErrLimiterClosed)
  | _ => none

/-- `start`, run by the `i`-th call of `Do` with no other goroutine
interfering: the steps of that call until `start` returns; `none` when it has
not returned within `fuel` steps. -/
def start : Nat → State → Nat → Option (State × Option LimiterError)
  | 0, s, i => (startReturned s i).map (fun r => (s, r))
  | fuel + 1, s, i =>
    match startReturned s i with
    | some r => some (s, r)
    | none =>
      match stepThread s i with
      | some s' => start fuel s' i
      | none => none

/-- `Do` with no other goroutine interfering: the initial increment, `start`,
and on an error the decrement; the state when `Do` returns and the error it
returns. `none` when `start` has not returned within `fuel` steps. -/
def Do (fuel : Nat) (s : State) : Option (State × Option LimiterError) :=
  match step s Action.call with
  | none => none
  | some s₁ =>
    match start fuel s₁ s.threads.length with
    | none => none
    | some (s₂, some err) => (stepThread s₂ s.threads.length).map (fun s₃ => (s₃, some err))
    | some (s₂, none) => some (s₂, none)

/-- A step of the limiter, or a release that no admission matches: a call of
`done` made directly on the limiter. -/
inductive Move
  | act (a : Action)
  | release
deriving DecidableEq, Repr

/-- One move; `none` when it is not enabled. -/
def move (s : State) : Move → Option State
  | Move.act a => step s a
  | Move.release => if s.crashed then none else some (done s).1

/-- Plays moves one after the other. -/
def play : State → List Move → Option State
  | s, [] => some s
  | s, m :: ms =>
    match move s m with
    | some s' => play s' ms
    | none => none

/-- The move is no caller entering `Do`. -/
def Move.noCall : Move → Bool
  | Move.act Action.call => false
  | _ => true

/-- The move is a release or a step of a call of `Do`; when no call is pending
the only such steps are the calls of `done` by admitted tasks that complete. -/
def Move.isDone : Move → Bool
  | Move.release => true
  | Move.act (Action.thread _) => true
  | _ => false

/-- The counter holds one unit per pending call and two per admitted task, no
panic has happened. -/
def Balanced (s : State) : Prop :=
  s.count = (pendingCount s : Int) + 2 * (admittedCount s : Int)
    ∧ s.crashed = false ∧ Pc.panicked ∉ s.threads

/-- Under the fixed limit `L`: the limit field is `L`, every call between the two
loads of `isLimitKept` has loaded `L`, every call about to compare-and-swap has
read a count that passed the check against `L`, and at most `L` tasks are
admitted and not completed. -/
def Bounded (L : Int) (s : State) : Prop :=
  s.limit = L ∧ (∀ l, Pc.loadCount l ∈ s.threads → l = L)
    ∧ (∀ c, Pc.cas c ∈ s.threads → limitKept L c = true)
    ∧ (admittedCount s : Int) ≤ L

/-- Where a call can stand that found the limiter closed or cancelled on entry. -/
def Pc.turnedAway (ctxDone : Bool) : Pc → Bool
  | Pc.loop => true
  | Pc.checkCtx => ctxDone
  | Pc.rollback => true
  | Pc.rejected => true
  | _ => false

/-- The limiter is closed or cancelled and every call from the `n`-th on is on its
way to `ErrLimiterClosed`. -/
def Shut (n : Nat) (s : State) : Prop :=
  (s.closed = true ∨ s.ctxDone = true)
    ∧ ∀ (j : Nat) (pc : Pc), n ≤ j → s.threads[j]? = some pc → pc.turnedAway s.ctxDone = true

/-- A schedule on a limiter of limit 1: a first call is admitted, a second call
spins once round the loop, the first task completes, the second call is
admitted. -/
def handOver : List Action :=
  [Action.call, Action.thread 0, Action.thread 0, Action.thread 0, Action.thread 0,
   Action.thread 0, Action.call, Action.thread 1, Action.thread 1, Action.thread 1,
   Action.thread 1, Action.thread 0, Action.thread 1, Action.thread 1, Action.thread 1,
   Action.thread 1, Action.thread 1]

/-- The ten steps that take the first two calls through `start` one after the
other. -/
def admitTwo : List Action :=
  [Action.thread 0, Action.thread 0, Action.thread 0, Action.thread 0, Action.thread 0,
   Action.thread 1, Action.thread 1, Action.thread 1, Action.thread 1, Action.thread 1]

/-- The state the hand-over schedule ends in. -/
def handedOver : State :=
  { limit := 1, count := 2, closed := false, ctxDone := false, crashed := false,
    threads := [Pc.finished, Pc.running] }

/-- One call that goes through `start` on its own. -/
def admitOne : List Action :=
  [Action.call, Action.thread 0, Action.thread 0, Action.thread 0, Action.thread 0,
   Action.thread 0]

/-- A limiter of limit 1 with one task admitted and running. -/
def oneRunning : State :=
  { limit := 1, count := 2, closed := false, ctxDone := false, crashed := false,
    threads := [Pc.running] }

/-- A limiter of limit 1 on which two callers have entered `Do` and neither has
been admitted yet. -/
def twoPending : State :=
  { limit := 1, count := 2, closed := false, ctxDone := false, crashed := false,
    threads := [Pc.loop, Pc.loop] }

/-- A limiter of limit 1 with one task running and one call of `Do` pending. -/
def onePending : State :=
  { limit := 1, count := 3, closed := false, ctxDone := false, crashed := false,
    threads := [Pc.running, Pc.loop] }

/-- A release, the admission of the second call, and a second release. -/
def releaseTwice : List Move :=
  [Move.release, Move.act (Action.thread 1), Move.act (Action.thread 1),
   Move.act (Action.thread 1), Move.act (Action.thread 1), Move.act (Action.thread 1),
   Move.release]

end Parallel

namespace Failure

/-- Two's-complement wrap of an integer into the range of Go's `int64`. -/
def wrap64 (x : Int) : Int :=
  (x + 9223372036854775808) % 18446744073709551616 - 9223372036854775808

/-- A Go `map[string]V`: the keys that are present, each once, with their
values. The entries are kept in the order in which the keys were first set;
the order carries no meaning. -/
abbrev GoMap (ν : Type) := List (String × ν)

/-- The lookup `v, ok := table[k]`. -/
def GoMap.get? {ν : Type} : GoMap ν → String → Option ν
  | [], _ => none
  | (k', v) :: m, k => if k' = k then some v else GoMap.get? m k

/-- The assignment `table[k] = v`. -/
def GoMap.set {ν : Type} : GoMap ν → String → ν → GoMap ν
  | [], k, v => [(k, v)]
  | (k', v') :: m, k, v => if k' = k then (k', v) :: m else (k', v') :: GoMap.set m k v

/-- The keys of a map. -/
def GoMap.keys {ν : Type} (m : GoMap ν) : List String := m.map Prod.fst

/-- Where the goroutine started by `NewErrors` stands in `collect`. -/
inductive Collector (ε : Type)
  /-- the goroutine has not yet executed `s.wg.Add(1)` -/
  | idle
  /-- in `for err := range s.queue`, waiting to receive -/
  | ranging
  /-- has received `err` from the queue and not yet appended it -/
  | holding (err : ε)
  /-- the loop has ended and `s.wg.Done()` has run -/
  | exited
deriving DecidableEq, Repr

/-- The fields of `Errors`: the log, whether `close(s.queue)` has happened (the
`closer` lets it happen once), and the collector. `ε` is the type of the values
of Go's interface `error`, the nil error among them: `Add` and `collect` put
whatever they are given into the log. -/
structure Errors (ε : Type) where
  errors : List ε
  closed : Bool
  collector : Collector ε
deriving DecidableEq, Repr

/-- `NewErrors`. -/
def NewErrors (ε : Type) : Errors ε :=
  { errors := [], closed := false, collector := Collector.idle }

/-- How a call of `Add` ended. -/
inductive AddOutcome
  /-- the collector received the error -/
  | delivered
  /-- the send panicked on the closed queue and the deferred `recover()`
  swallowed the panic -/
  | recovered
deriving DecidableEq, Repr

/-- `Add`: the send on the unbuffered queue. `none` while the send blocks, which
it does as long as the queue is open and the collector is not receiving. -/
def Add {ε : Type} (s : Errors ε) (err : ε) : Option (Errors ε × AddOutcome) :=
  if s.closed then some (s, AddOutcome.recovered)
  else match s.collector with
    | Collector.ranging => some ({ s with collector := Collector.holding err }, AddOutcome.delivered)
    | _ => none

/-- The next step of `collect`; `none` when it blocks or has returned. -/
def collect {ε : Type} (s : Errors ε) : Option (Errors ε) :=
  match s.collector with
  | Collector.idle => some { s with collector := Collector.ranging }
  | Collector.ranging => if s.closed then some { s with collector := Collector.exited } else none
  | Collector.holding err =>
      some { s with errors := s.errors ++ [err], collector := Collector.ranging }
  | Collector.exited => none

/-- The body run under `s.closer`: `close(s.queue)`. -/
def closeQueue {ε : Type} (s : Errors ε) : Errors ε := { s with closed := true }

/-- `Wait`: returns once the wait group is at zero, that is at once when the
collector has not yet added itself to it or has left, and otherwise, once the
queue is closed, when the collector has appended what it holds and left its
loop. `none` while it blocks, the queue being open. -/
def Wait {ε : Type} (s : Errors ε) : Option (Errors ε) :=
  match s.collector with
  | Collector.idle => some s
  | Collector.ranging =>
      if s.closed then some { s with collector := Collector.exited } else none
  | Collector.holding err =>
      if s.closed then
        some { s with errors := s.errors ++ [err], collector := Collector.exited }
      else none
  | Collector.exited => some s

/-- `Done`. -/
def Done {ε : Type} (s : Errors ε) : Option (Errors ε) := Wait (closeQueue s)

/-- What can happen to an error log. -/
inductive Event (ε : Type)
  /-- a producer calls `Add(err)` -/
  | add (err : ε)
  /-- the collector takes its next step -/
  | collector
  /-- the queue is closed, by `Done` or by the cancellation token -/
  | close
deriving DecidableEq, Repr

/-- One step of the error log; `none` when the event is not enabled. -/
def step {ε : Type} (s : Errors ε) : Event ε → Option (Errors ε)
  | Event.add err => (Add s err).map Prod.fst
  | Event.collector => collect s
  | Event.close => some (closeQueue s)

/-- Runs a sequence of events. -/
def run {ε : Type} : Errors ε → List (Event ε) → Option (Errors ε)
  | s, [] => some s
  | s, e :: es =>
    match step s e with
    | some s' => run s' es
    | none => none

/-- The body of the loop of `Messages`. `Error err` is what the call
`err.Error()` gives: `none` when the call panics, as it does on the nil error,
and then the body panics. -/
def messagesStep {ε : Type} (GetErrorCode : ε → String) (Error : ε → Option String)
    (table : GoMap (List String)) (err : ε) : Option (GoMap (List String)) :=
  match table.get? (GetErrorCode err) with
  | some msgs => (Error err).map (fun text => table.set (GetErrorCode err) (msgs ++ [text]))
  | none => (Error err).map (fun text => table.set (GetErrorCode err) [text])

/-- The loop `for _, err := range s.errors` of `Messages`, from the table built so
far; `none` when the body panics at some entry. -/
def messagesLoop {ε : Type} (GetErrorCode : ε → String) (Error : ε → Option String) :
    List ε → GoMap (List String) → Option (GoMap (List String))
  | [], table => some table
  | err :: rest, table =>
    match messagesStep GetErrorCode Error table err with
    | some table' => messagesLoop GetErrorCode Error rest table'
    | none => none

/-- `Messages`, over the classification `GetErrorCode` and the method `Error()`
of the logged values, the nil error among them: the map it returns, or `none`
when it panics. -/
def Messages {ε : Type} (GetErrorCode : ε → String) (Error : ε → Option String)
    (s : Errors ε) : Option (GoMap (List String)) :=
  messagesLoop GetErrorCode Error s.errors []

/-- The body of the loop of `Count`; the tally is an `int64`. -/
def countStep {ε : Type} (GetErrorCode : ε → String) (table : GoMap Int) (err : ε) :
    GoMap Int :=
  match table.get? (GetErrorCode err) with
  | some n => table.set (GetErrorCode err) (wrap64 (n + 1))
  | none => table.set (GetErrorCode err) 1

/-- `Count`, over the classification `GetErrorCode`. -/
def Count {ε : Type} (GetErrorCode : ε → String) (s : Errors ε) : GoMap Int :=
  s.errors.foldl (countStep GetErrorCode) []

/-- What the table of `Messages` holds once the entries `xs` of the log have been
processed. -/
def MessagesOf {ε : Type} (code : ε → String) (text : ε → String) (xs : List ε)
    (m : GoMap (List String)) : Prop :=
  m.keys.Nodup
    ∧ (∀ c, m.get? c = if c ∈ xs.map code then
          some ((xs.filter (fun e => decide (code e = c))).map text) else none)
    ∧ (m.map (fun p => p.2.length)).sum = xs.length

/-- What the table of `Count` holds once the entries `xs` of the log have been
processed. -/
def CountOf {ε : Type} (code : ε → String) (xs : List ε) (m : GoMap Int) : Prop :=
  m.keys.Nodup
    ∧ (∀ c, m.get? c = if c ∈ xs.map code then
          some (((xs.map code).count c : Nat) : Int) else none)

/-- A log of three errors, and a classification that puts the first two under
`A` and the third under `B`. -/
def sampleLog : Errors Nat :=
  { errors := [0, 1, 2], closed := true, collector := Collector.exited }

/-- The classification of the sample log. -/
def sampleCode (e : Nat) : String := if e < 2 then "A" else "B"

/-- The `Error()` texts of the sample log. -/
def sampleText (e : Nat) : String :=
  if e = 0 then "first" else if e = 1 then "second" else "third"

/-- A log into which the nil error was added, `none` standing for nil: the
state after `Add(nil)` was received by the collector and `Done` has returned. -/
def nilLogged : Errors (Option String) :=
  { errors := [none], closed := true, collector := Collector.exited }

/-- A classification of possibly nil errors. -/
def nilCode (e : Option String) : String :=
  match e with
  | none => "unknown"
  | some _ => "A"

end Failure

namespace WorkerPkg

/-- The operations of `WorkerLimiter`, a type of the package `worker` that is
declared outside the sources at hand; they are parameters of the worker.
`Do l i` stands for `limiter.Do(ctx, f)` with `f` the closure that calls
`w.workFunc(ctx, i)`: it gives the limiter afterwards and whether `f` was
started. -/
structure LimiterOps (σ : Type) where
  NewWorkerLimiter : Int → σ
  Reset : σ → σ
  Close : σ → σ
  Do : σ → Int → σ × Bool
  Wait : σ → σ
  SetParallelism : σ → Int → σ

/-- The fields of `Worker` other than the work function: the iteration count
and the parallelism, both `int32`, and the limiter once it has been created. -/
structure Worker (σ : Type) where
  count : Int
  parallelism : Int
  limiter : Option σ

/-- `WithLoopCount(count)`: stores `int32(count)`. -/
def WithLoopCount {σ : Type} (count : Int) (w : Worker σ) : Worker σ :=
  { w with count := Parallel.wrap32 count }

/-- `WithInfinityLoop()`. -/
def WithInfinityLoop {σ : Type} (w : Worker σ) : Worker σ := { w with count := -1 }

/-- `WithMaxParallelism(parallelism)`: stores `int32(parallelism)`. -/
def WithMaxParallelism {σ : Type} (parallelism : Int) (w : Worker σ) : Worker σ :=
  { w with parallelism := Parallel.wrap32 parallelism }

/-- `WithUnlimitedParallelism()`. -/
def WithUnlimitedParallelism {σ : Type} (w : Worker σ) : Worker σ :=
  { w with parallelism := -1 }

/-- `NewWorker` before its options are applied. -/
def NewWorker (σ : Type) : Worker σ := { count := -1, parallelism := -1, limiter := none }

/-- `getLimiter`: the worker's limiter, created on first use. -/
def getLimiter {σ : Type} (L : LimiterOps σ) (w : Worker σ) : Worker σ × σ :=
  match w.limiter with
  | some l => (w, l)
  | none => ({ w with limiter := some (L.NewWorkerLimiter w.parallelism) },
             L.NewWorkerLimiter w.parallelism)

/-- `SetParallelism`. -/
def SetParallelism {σ : Type} (L : LimiterOps σ) (w : Worker σ) (parallelism : Int) :
    Worker σ :=
  { w with parallelism := parallelism,
           limiter := w.limiter.map (fun l => L.SetParallelism l parallelism) }

/-- The limiter during a submission loop, the indices of the tasks handed to
`limiter.Do` so far, in order, and the indices of those it started, that is the
indices with which the work function is called. -/
structure Run (σ : Type) where
  limiter : σ
  submitted : List Int
  started : List Int

/-- The statement `limiter.Do(ctx, work(i))`; its result is discarded. -/
def submit {σ : Type} (L : LimiterOps σ) (r : Run σ) (i : Int) : Run σ :=
  { limiter := (L.Do r.limiter i).1,
    submitted := r.submitted ++ [i],
    started := if (L.Do r.limiter i).2 then r.started ++ [i] else r.started }

/-- The loop `for i := 0; i < limit; i++` of `processLimited`, from index `i` with
`n` iterations left. `ctx k` tells whether the token is seen fired at the `k`-th
look at it; the `select` of iteration `i` is the look `i + 1`. The boolean tells
whether the loop was left through the `ctx.Done()` case. -/
def limitedLoop {σ : Type} (L : LimiterOps σ) (ctx : Nat → Bool) :
    Nat → Nat → Run σ → Run σ × Bool
  | 0, _, r => (r, false)
  | n + 1, i, r =>
    if ctx (i + 1) then ({ r with limiter := L.Close r.limiter }, true)
    else limitedLoop L ctx n (i + 1) (submit L r (i : Int))

/-- What a call of `Process` leaves: the worker, the indices of the tasks handed
to the limiter, and the indices of the tasks started. -/
structure Outcome (σ : Type) where
  worker : Worker σ
  submitted : List Int
  started : List Int

/-- `processLimited`. The deferred `limiter.Close()` runs last on both ways out
of the function. -/
def processLimited {σ : Type} (L : LimiterOps σ) (ctx : Nat → Bool) (w : Worker σ)
    (limit : Int) : Outcome σ :=
  if ctx 0 then { worker := w, submitted := [], started := [] }
  else
    let wl := getLimiter L w
    let r := limitedLoop L ctx limit.toNat 0
      { limiter := L.Reset wl.2, submitted := [], started := [] }
    let l := if r.2 then L.Close r.1.limiter else L.Close (L.Wait r.1.limiter)
    { worker := { wl.1 with limiter := some l },
      submitted := r.1.submitted, started := r.1.started }

/-- The loop `for { select ... }` of `processInfinity`, from the look `k` at the
token; `none` when the token has not fired within `fuel` iterations. -/
def infinityLoop {σ : Type} (L : LimiterOps σ) (ctx : Nat → Bool) :
    Nat → Nat → Run σ → Option (Run σ)
  | 0, _, _ => none
  | fuel + 1, k, r =>
    if ctx k then some { r with limiter := L.Close r.limiter }
    else infinityLoop L ctx fuel (k + 1) (submit L r (-1))

/-- `processInfinity`. -/
def processInfinity {σ : Type} (fuel : Nat) (L : LimiterOps σ) (ctx : Nat → Bool)
    (w : Worker σ) : Option (Outcome σ) :=
  if ctx 0 then some { worker := w, submitted := [], started := [] }
  else
    let wl := getLimiter L w
    match infinityLoop L ctx fuel 1 { limiter := L.Reset wl.2, submitted := [], started := [] } with
    | none => none
    | some r =>
      some { worker := { wl.1 with limiter := some (L.Close r.limiter) },
             submitted := r.submitted, started := r.started }

/-- `Process`. -/
def Process {σ : Type} (fuel : Nat) (L : LimiterOps σ) (ctx : Nat → Bool) (w : Worker σ) :
    Option (Outcome σ) :=
  if w.count < 1 then processInfinity fuel L ctx w
  else some (processLimited L ctx w w.count)

/-- A limiter that starts every task it is given and records it. -/
def recorder : LimiterOps (List Int) where
  NewWorkerLimiter := fun _ => []
  Reset := fun _ => []
  Close := fun l => l
  Do := fun l i => (l ++ [i], true)
  Wait := fun l => l
  SetParallelism := fun l _ => l

/-- A token that never fires. -/
def never : Nat → Bool := fun _ => false

end WorkerPkg

/-! ## Limiter: auxiliary facts -/

namespace Parallel

theorem wrap32_eq_self {x : Int} (h : inInt32 x) : wrap32 x = x := by
  unfold inInt32 at h
  unfold wrap32
  omega

theorem wrap32_inInt32 (x : Int) : inInt32 (wrap32 x) := by
  unfold inInt32 wrap32
  omega

theorem wrap32_add_wrap32 (x y : Int) : wrap32 (wrap32 x + y) = wrap32 (x + y) := by
  unfold wrap32
  omega

/-- Replacing one element changes a count by what the old and the new element
contribute. -/
theorem countP_set_int {α : Type} (p : α → Bool) :
    ∀ (l : List α) (i : Nat) (a x : α), l[i]? = some a →
      ((l.set i x).countP p : Int)
        = (l.countP p : Int) - (if p a then 1 else 0) + (if p x then 1 else 0) := by
  intro l
  induction l with
  | nil => intro i a x h; simp at h
  | cons b t ih =>
    intro i a x h
    cases i with
    | zero =>
      simp only [List.getElem?_cons_zero, Option.some.injEq] at h
      subst h
      simp only [List.set_cons_zero, List.countP_cons]
      split <;> split <;> push_cast <;> omega
    | succ j =>
      simp only [List.getElem?_cons_succ] at h
      simp only [List.set_cons_succ, List.countP_cons]
      have := ih j a x h
      split <;> push_cast <;> omega

theorem pending_setPc (s : State) (i : Nat) (a x : Pc) (h : s.threads[i]? = some a) :
    (pendingCount (setPc s i x) : Int)
      = (pendingCount s : Int) - (if a.isPending then 1 else 0)
          + (if x.isPending then 1 else 0) := by
  unfold pendingCount setPc
  exact countP_set_int Pc.isPending s.threads i a x h

theorem admitted_setPc (s : State) (i : Nat) (a x : Pc) (h : s.threads[i]? = some a) :
    (admittedCount (setPc s i x) : Int)
      = (admittedCount s : Int) - (if a.isAdmitted then 1 else 0)
          + (if x.isAdmitted then 1 else 0) := by
  unfold admittedCount setPc
  exact countP_set_int Pc.isAdmitted s.threads i a x h

theorem mem_setPc {s : State} {i : Nat} {x pc : Pc} (h : pc ∈ (setPc s i x).threads) :
    pc ∈ s.threads ∨ pc = x := by
  unfold setPc at h
  exact List.mem_or_eq_of_mem_set h

theorem fits_of_fitsAlong {s : State} {acts : List Action} (h : fitsAlong s acts = true) :
    fits s := by
  cases acts with
  | nil => simpa [fitsAlong] using h
  | cons a as =>
    simp only [fitsAlong, Bool.and_eq_true, decide_eq_true_eq] at h
    exact h.1

end Parallel

namespace Parallel

theorem step_call {s : State} (h : s.crashed = false) :
    step s Action.call
      = some { s with count := wrap32 (s.count + 1), threads := s.threads ++ [Pc.loop] } := by
  simp [step, h]

theorem step_thread {s : State} (h : s.crashed = false) (i : Nat) :
    step s (Action.thread i) = stepThread s i := by
  simp [step, h]

theorem step_crashed {s : State} {a : Action} {s' : State} (h : step s a = some s') :
    s.crashed = false := by
  cases hc : s.crashed with
  | false => rfl
  | true => simp [step, hc] at h

/-- One step keeps the counter balanced, as long as the units held after it fit
the counter. -/
theorem balanced_step {s s' : State} {a : Action} (hb : Balanced s)
    (hs : step s a = some s') (hf : fits s') : Balanced s' := by
  obtain ⟨hc, hcr, hp⟩ := hb
  unfold Balanced
  unfold fits at hf
  unfold pendingCount admittedCount at *
  cases a with
  | call =>
    rw [step_call hcr] at hs
    simp only [Option.some.injEq] at hs
    subst hs
    simp only [List.countP_append, List.countP_cons, List.countP_nil, Pc.isPending,
      Pc.isAdmitted] at hf ⊢
    refine ⟨?_, hcr, ?_⟩
    · push_cast at hf ⊢
      unfold wrap32
      simp at hf ⊢
      omega
    · simpa using hp
  | close =>
    simp only [step, hcr, Close, Bool.false_eq_true, if_false, Option.some.injEq] at hs
    subst hs
    exact ⟨hc, rfl, hp⟩
  | cancel =>
    simp only [step, hcr, Bool.false_eq_true, if_false, Option.some.injEq] at hs
    subst hs
    exact ⟨hc, rfl, hp⟩
  | watcher =>
    simp only [step, hcr, Bool.false_eq_true, if_false] at hs
    split at hs
    · simp only [Option.some.injEq] at hs
      subst hs
      exact ⟨hc, rfl, hp⟩
    · exact absurd hs (by simp)
  | setParallelism n =>
    simp only [step, hcr, SetParallelism, Bool.false_eq_true, if_false] at hs
    split at hs
    · simp only [Option.some.injEq] at hs
      subst hs
      exact ⟨hc, rfl, hp⟩
    · exact absurd hs (by simp)
  | addParallelism d =>
    simp only [step, hcr, AddParallelism, Bool.false_eq_true, if_false] at hs
    split at hs
    · simp only [Option.some.injEq] at hs
      subst hs
      exact ⟨hc, rfl, hp⟩
    · exact absurd hs (by simp)
  | thread i =>
    rw [step_thread hcr] at hs
    cases hth : s.threads[i]? with
    | none => simp [stepThread, hth] at hs
    | some pc =>
      have hP := fun (x : Pc) => countP_set_int Pc.isPending s.threads i pc x hth
      have hA := fun (x : Pc) => countP_set_int Pc.isAdmitted s.threads i pc x hth
      have hM : ∀ (x : Pc), x ≠ Pc.panicked → Pc.panicked ∉ s.threads.set i x := by
        intro x hx hmem
        rcases List.mem_or_eq_of_mem_set hmem with h | h
        · exact hp h
        · exact hx h.symm
      cases pc with
      | loop =>
        simp only [stepThread, hth, Option.some.injEq] at hs
        subst hs
        split <;>
        · simp only [setPc]
          refine ⟨?_, hcr, hM _ (by simp)⟩
          rw [hP, hA]
          simp [Pc.isPending, Pc.isAdmitted]
          omega
      | checkCtx =>
        simp only [stepThread, hth, Option.some.injEq] at hs
        subst hs
        split <;>
        · simp only [setPc]
          refine ⟨?_, hcr, hM _ (by simp)⟩
          rw [hP, hA]
          simp [Pc.isPending, Pc.isAdmitted]
          omega
      | loadLimit =>
        simp only [stepThread, hth, Option.some.injEq] at hs
        subst hs
        simp only [setPc]
        refine ⟨?_, hcr, hM _ (by simp)⟩
        rw [hP, hA]
        simp [Pc.isPending, Pc.isAdmitted]
        omega
      | loadCount l =>
        simp only [stepThread, hth, Option.some.injEq] at hs
        subst hs
        split <;>
        · simp only [setPc]
          refine ⟨?_, hcr, hM _ (by simp)⟩
          rw [hP, hA]
          simp [Pc.isPending, Pc.isAdmitted]
          omega
      | cas c =>
        simp only [stepThread, hth, Option.some.injEq] at hs
        subst hs
        split
        · rename_i hcas
          simp only [hcas, if_true, setPc] at hf ⊢
          rw [hP, hA] at hf
          refine ⟨?_, hcr, hM _ (by simp)⟩
          rw [hP, hA]
          simp [Pc.isPending, Pc.isAdmitted] at hf ⊢
          unfold wrap32
          omega
        · simp only [setPc]
          refine ⟨?_, hcr, hM _ (by simp)⟩
          rw [hP, hA]
          simp [Pc.isPending, Pc.isAdmitted]
          omega
      | rollback =>
        simp only [stepThread, hth, Option.some.injEq] at hs
        subst hs
        simp only [setPc] at hf ⊢
        rw [hP, hA] at hf
        refine ⟨?_, hcr, hM _ (by simp)⟩
        rw [hP, hA]
        simp [Pc.isPending, Pc.isAdmitted] at hf ⊢
        unfold wrap32
        omega
      | running =>
        simp only [stepThread, hth, Option.some.injEq] at hs
        subst hs
        have hA1 := hA Pc.finished
        have hA2 := hA Pc.panicked
        have hP2 := hP Pc.panicked
        simp only [Pc.isAdmitted, Pc.isPending] at hA1 hA2 hP2
        have hpos : (0 : Int) ≤ (List.countP Pc.isAdmitted (s.threads.set i Pc.finished) : Int) :=
          Int.natCast_nonneg _
        have hnn : ¬ wrap32 (s.count - 2) < 0 := by
          intro hneg
          simp only [done, hneg, if_true, setPc] at hf
          rw [hP2, hA2] at hf
          unfold wrap32 at hneg
          simp at hA1 hf
          omega
        simp only [done, hnn, if_false, setPc, Bool.false_eq_true] at hf ⊢
        rw [hP, hA] at hf
        refine ⟨?_, hcr, hM _ (by simp)⟩
        rw [hP, hA]
        simp [Pc.isPending, Pc.isAdmitted] at hf ⊢
        unfold wrap32
        omega
      | rejected => simp [stepThread, hth] at hs
      | finished => simp [stepThread, hth] at hs
      | panicked => simp [stepThread, hth] at hs

theorem balanced_run : ∀ (acts : List Action) (s s' : State), Balanced s →
    run s acts = some s' → fitsAlong s acts = true → Balanced s' := by
  intro acts
  induction acts with
  | nil =>
    intro s s' hb hr _
    simp only [run, Option.some.injEq] at hr
    subst hr
    exact hb
  | cons a as ih =>
    intro s s' hb hr hf
    simp only [run] at hr
    cases hst : step s a with
    | none => simp [hst] at hr
    | some s1 =>
      simp only [hst] at hr
      have hf1 : fitsAlong s1 as = true := by
        simp only [fitsAlong, hst, Bool.and_eq_true] at hf
        exact hf.2
      exact ih s1 s' (balanced_step hb hst (fits_of_fitsAlong hf1)) hr hf1

/-- With the limit fixed at `L ≥ 1`, one step keeps the number of admitted tasks
at most `L`. -/
theorem bounded_step {L : Int} {s s' : State} {a : Action} (hL : 1 ≤ L) (hL32 : inInt32 L)
    (hb : Balanced s) (hB : Bounded L s) (hk : a.keepsLimit = true)
    (hs : step s a = some s') : Bounded L s' := by
  obtain ⟨hc, hcr, hp⟩ := hb
  obtain ⟨hlim, hld, hcs, hadm⟩ := hB
  unfold Bounded
  unfold pendingCount admittedCount at *
  cases a with
  | call =>
    rw [step_call hcr] at hs
    simp only [Option.some.injEq] at hs
    subst hs
    simp only [List.countP_append, List.countP_cons, List.countP_nil, Pc.isAdmitted,
      List.mem_append, List.mem_singleton]
    refine ⟨hlim, ?_, ?_, ?_⟩
    · intro l hl
      rcases hl with h | h
      · exact hld l h
      · exact absurd h (by simp)
    · intro c hl
      rcases hl with h | h
      · exact hcs c h
      · exact absurd h (by simp)
    · simpa using hadm
  | close =>
    simp only [step, hcr, Close, Bool.false_eq_true, if_false, Option.some.injEq] at hs
    subst hs
    exact ⟨hlim, hld, hcs, hadm⟩
  | cancel =>
    simp only [step, hcr, Bool.false_eq_true, if_false, Option.some.injEq] at hs
    subst hs
    exact ⟨hlim, hld, hcs, hadm⟩
  | watcher =>
    simp only [step, hcr, Bool.false_eq_true, if_false] at hs
    split at hs
    · simp only [Option.some.injEq] at hs
      subst hs
      exact ⟨hlim, hld, hcs, hadm⟩
    · exact absurd hs (by simp)
  | setParallelism n => simp [Action.keepsLimit] at hk
  | addParallelism d => simp [Action.keepsLimit] at hk
  | thread i =>
    rw [step_thread hcr] at hs
    cases hth : s.threads[i]? with
    | none => simp [stepThread, hth] at hs
    | some pc =>
      have hP := fun (x : Pc) => countP_set_int Pc.isPending s.threads i pc x hth
      have hA := fun (x : Pc) => countP_set_int Pc.isAdmitted s.threads i pc x hth
      have hmem : pc ∈ s.threads := List.getElem?_mem hth
      have hLd : ∀ (x : Pc), (∀ l, x = Pc.loadCount l → l = L) →
          ∀ l, Pc.loadCount l ∈ s.threads.set i x → l = L := by
        intro x hx l hl
        rcases List.mem_or_eq_of_mem_set hl with h | h
        · exact hld l h
        · exact hx l h.symm
      have hCs : ∀ (x : Pc), (∀ c, x = Pc.cas c → limitKept L c = true) →
          ∀ c, Pc.cas c ∈ s.threads.set i x → limitKept L c = true := by
        intro x hx c hl
        rcases List.mem_or_eq_of_mem_set hl with h | h
        · exact hcs c h
        · exact hx c h.symm
      cases pc with
      | loop =>
        simp only [stepThread, hth, Option.some.injEq] at hs
        subst hs
        split <;>
        · simp only [setPc]
          refine ⟨hlim, hLd _ (by simp), hCs _ (by simp), ?_⟩
          rw [hA]
          simp [Pc.isAdmitted]
          omega
      | checkCtx =>
        simp only [stepThread, hth, Option.some.injEq] at hs
        subst hs
        split <;>
        · simp only [setPc]
          refine ⟨hlim, hLd _ (by simp), hCs _ (by simp), ?_⟩
          rw [hA]
          simp [Pc.isAdmitted]
          omega
      | loadLimit =>
        simp only [stepThread, hth, Option.some.injEq] at hs
        subst hs
        simp only [setPc]
        refine ⟨hlim, hLd _ ?_, hCs _ (by simp), ?_⟩
        · intro l hl
          simp only [Pc.loadCount.injEq] at hl
          rw [← hl, hlim]
        · rw [hA]
          simp [Pc.isAdmitted]
          omega
      | loadCount l =>
        simp only [stepThread, hth, Option.some.injEq] at hs
        subst hs
        have hl := hld l hmem
        subst hl
        split
        · rename_i hkept
          simp only [setPc]
          refine ⟨hlim, hLd _ (by simp), hCs _ ?_, ?_⟩
          · intro c hcc
            simp only [Pc.cas.injEq] at hcc
            rw [← hcc]
            exact hkept
          · rw [hA]
            simp [Pc.isAdmitted]
            omega
        · simp only [setPc]
          refine ⟨hlim, hLd _ (by simp), hCs _ (by simp), ?_⟩
          rw [hA]
          simp [Pc.isAdmitted]
          omega
      | cas c =>
        simp only [stepThread, hth, Option.some.injEq] at hs
        subst hs
        have hkept := hcs c hmem
        split
        · rename_i hcas
          simp only [setPc]
          refine ⟨hlim, hLd _ (by simp), hCs _ (by simp), ?_⟩
          have hP1 := hP Pc.running
          have hpos : (0 : Int) ≤ (List.countP Pc.isPending (s.threads.set i Pc.running) : Int) :=
            Int.natCast_nonneg _
          rw [hA]
          unfold limitKept wrap32 at hkept
          unfold inInt32 at hL32
          simp [Pc.isPending, Pc.isAdmitted] at hP1 hkept ⊢
          omega
        · simp only [setPc]
          refine ⟨hlim, hLd _ (by simp), hCs _ (by simp), ?_⟩
          rw [hA]
          simp [Pc.isAdmitted]
          omega
      | rollback =>
        simp only [stepThread, hth, Option.some.injEq] at hs
        subst hs
        simp only [setPc]
        refine ⟨hlim, hLd _ (by simp), hCs _ (by simp), ?_⟩
        rw [hA]
        simp [Pc.isAdmitted]
        omega
      | running =>
        simp only [stepThread, hth, Option.some.injEq] at hs
        subst hs
        have hthr : ∀ x, (setPc (done s).1 i x).threads = s.threads.set i x := by
          intro x
          simp only [setPc, done]
          split <;> rfl
        have hlim2 : ∀ x, (setPc (done s).1 i x).limit = L := by
          intro x
          simp only [setPc, done]
          split <;> exact hlim
        rw [hthr]
        refine ⟨hlim2 _, hLd _ ?_, hCs _ ?_, ?_⟩
        · intro l hl; split at hl <;> simp at hl
        · intro l hl; split at hl <;> simp at hl
        · have hx : (if (done s).2 = true then Pc.panicked else Pc.finished).isAdmitted = false := by
            split <;> rfl
          rw [hA, hx]
          simp [Pc.isAdmitted]
          omega
      | rejected => simp [stepThread, hth] at hs
      | finished => simp [stepThread, hth] at hs
      | panicked => simp [stepThread, hth] at hs

theorem bounded_run {L : Int} (hL : 1 ≤ L) (hL32 : inInt32 L) :
    ∀ (acts : List Action) (s s' : State), Balanced s → Bounded L s →
      acts.all Action.keepsLimit = true → run s acts = some s' →
      fitsAlong s acts = true → Bounded L s' := by
  intro acts
  induction acts with
  | nil =>
    intro s s' _ hB _ hr _
    simp only [run, Option.some.injEq] at hr
    subst hr
    exact hB
  | cons a as ih =>
    intro s s' hb hB hk hr hf
    simp only [run] at hr
    simp only [List.all_cons, Bool.and_eq_true] at hk
    cases hst : step s a with
    | none => simp [hst] at hr
    | some s1 =>
      simp only [hst] at hr
      have hf1 : fitsAlong s1 as = true := by
        simp only [fitsAlong, hst, Bool.and_eq_true] at hf
        exact hf.2
      exact ih s1 s' (balanced_step hb hst (fits_of_fitsAlong hf1))
        (bounded_step hL hL32 hb hB hk.1 hst) hk.2 hr hf1

theorem bounded_new (L : Int) (hL : 1 ≤ L) : Bounded L (NewParallel L) := by
  simp [Bounded, NewParallel, admittedCount]
  omega

theorem balanced_new (limit : Int) : Balanced (NewParallel limit) := by
  simp [Balanced, NewParallel, pendingCount, admittedCount]

theorem run_append : ∀ (xs ys : List Action) (s : State),
    run s (xs ++ ys) = (run s xs).bind (fun s' => run s' ys) := by
  intro xs
  induction xs with
  | nil => intro ys s; rfl
  | cons a as ih =>
    intro ys s
    simp only [List.cons_append, run]
    cases step s a with
    | none => rfl
    | some s1 => exact ih ys s1

/-- After `n` callers have entered `Do` and done nothing else, the counter is the
wrapped `count + n` and `n` more calls sit at the head of the loop. -/
theorem run_calls : ∀ (n : Nat) (s : State), s.crashed = false → inInt32 s.count →
    run s (List.replicate n Action.call)
      = some { s with count := wrap32 (s.count + n),
                      threads := s.threads ++ List.replicate n Pc.loop } := by
  intro n
  induction n with
  | zero =>
    intro s _ h32
    have h0 : wrap32 (s.count + ((0 : Nat) : Int)) = s.count := by
      rw [Nat.cast_zero, add_zero]
      exact wrap32_eq_self h32
    rw [h0]
    simp [run]
  | succ k ih =>
    intro s hcr h32
    rw [List.replicate_succ]
    simp only [run, step_call hcr]
    rw [ih { s with count := wrap32 (s.count + 1), threads := s.threads ++ [Pc.loop] } hcr
      (wrap32_inInt32 _)]
    simp only [Option.some.injEq]
    have hc : wrap32 (wrap32 (s.count + 1) + (k : Int)) = wrap32 (s.count + ((k + 1 : Nat) : Int)) := by
      rw [wrap32_add_wrap32]
      congr 1
      push_cast
      omega
    rw [hc, List.replicate_succ]
    simp

/-- The five steps that admit the first call when the limiter is open and the
check passes on the count it reads. -/
theorem run_admit_first (L c : Int) (rest : List Pc) (hk : limitKept L c = true) :
    run { limit := L, count := c, closed := false, ctxDone := false, crashed := false,
          threads := Pc.loop :: rest }
        [Action.thread 0, Action.thread 0, Action.thread 0, Action.thread 0, Action.thread 0]
      = some { limit := L, count := wrap32 (c + 1), closed := false, ctxDone := false,
               crashed := false, threads := Pc.running :: rest } := by
  simp [run, step, stepThread, setPc, hk]

/-- The same five steps for the second call. -/
theorem run_admit_second (L c : Int) (p : Pc) (rest : List Pc) (hk : limitKept L c = true) :
    run { limit := L, count := c, closed := false, ctxDone := false, crashed := false,
          threads := p :: Pc.loop :: rest }
        [Action.thread 1, Action.thread 1, Action.thread 1, Action.thread 1, Action.thread 1]
      = some { limit := L, count := wrap32 (c + 1), closed := false, ctxDone := false,
               crashed := false, threads := p :: Pc.running :: rest } := by
  simp [run, step, stepThread, setPc, hk]

/-- The state after 2^31 callers have entered `Do` on a fresh limiter of limit 1:
the counter has wrapped to the least `int32`. -/
theorem run_calls_overflow :
    run (NewParallel 1) (List.replicate 2147483648 Action.call)
      = some { limit := 1, count := -2147483648, closed := false, ctxDone := false,
               crashed := false,
               threads := Pc.loop :: Pc.loop :: List.replicate 2147483646 Pc.loop } := by
  rw [run_calls 2147483648 (NewParallel 1) rfl (by unfold inInt32 NewParallel; decide)]
  have h1 : wrap32 ((NewParallel 1).count + ((2147483648 : Nat) : Int)) = -2147483648 := by
    unfold NewParallel wrap32
    norm_num
  have h2 : (2147483648 : Nat) = 2147483646 + 1 + 1 := by norm_num
  rw [h1, h2, List.replicate_succ, List.replicate_succ]
  rfl

/-- The first task completes while the counter, less 2, is negative: its `done`
panics. -/
theorem run_done_panics (L c : Int) (rest : List Pc) (hneg : wrap32 (c - 2) < 0) :
    run { limit := L, count := c, closed := false, ctxDone := false, crashed := false,
          threads := Pc.running :: rest } [Action.thread 0]
      = some { limit := L, count := wrap32 (c - 2), closed := false, ctxDone := false,
               crashed := true, threads := Pc.panicked :: rest } := by
  simp [run, step, stepThread, setPc, done, hneg]

/-- The state reached when 2^31 callers have entered `Do` on a fresh limiter of
limit 1 and the first two of them then go through `start`: both are admitted. -/
theorem run_overflow_admitTwo :
    run (NewParallel 1) (List.replicate 2147483648 Action.call ++ admitTwo)
      = some { limit := 1, count := -2147483646, closed := false, ctxDone := false,
               crashed := false,
               threads := Pc.running :: Pc.running :: List.replicate 2147483646 Pc.loop } := by
  have h5 : admitTwo
      = [Action.thread 0, Action.thread 0, Action.thread 0, Action.thread 0, Action.thread 0]
        ++ [Action.thread 1, Action.thread 1, Action.thread 1, Action.thread 1,
            Action.thread 1] := rfl
  rw [run_append, run_calls_overflow, Option.bind, h5, run_append,
    run_admit_first 1 (-2147483648) _ (by decide), Option.bind,
    run_admit_second 1 (wrap32 (-2147483648 + 1)) _ _ (by decide)]
  have hw : wrap32 (wrap32 (-2147483648 + 1) + 1) = -2147483646 := by decide
  rw [hw]

end Parallel

/-! ## Limiter: one call of `Do` on its own -/

namespace Parallel

theorem getElem?_last (l : List Pc) (x : Pc) : (l ++ [x])[l.length]? = some x := by
  simp

theorem set_last (l : List Pc) (x y : Pc) : (l ++ [x]).set l.length y = l ++ [y] := by
  simp

/-- While the limiter is open and the check fails on the current count, a call
that runs alone goes round the loop of `start` for ever. -/
theorem start_spins (L c : Int) (l : List Pc) (hk : limitKept L c = false) :
    ∀ (fuel : Nat) (pc : Pc),
      pc = Pc.loop ∨ pc = Pc.checkCtx ∨ pc = Pc.loadLimit ∨ pc = Pc.loadCount L →
      start fuel { limit := L, count := c, closed := false, ctxDone := false,
                   crashed := false, threads := l ++ [pc] } l.length = none := by
  intro fuel
  induction fuel with
  | zero =>
    intro pc hpc
    rcases hpc with h | h | h | h <;> subst h <;> simp [start, startReturned]
  | succ k ih =>
    intro pc hpc
    rcases hpc with h | h | h | h <;> subst h
    · simp only [start, startReturned, stepThread, getElem?_last, setPc, set_last]
      simpa using ih Pc.checkCtx (by simp)
    · simp only [start, startReturned, stepThread, getElem?_last, setPc, set_last]
      simpa using ih Pc.loadLimit (by simp)
    · simp only [start, startReturned, stepThread, getElem?_last, setPc, set_last]
      simpa using ih (Pc.loadCount L) (by simp)
    · simp only [start, startReturned, stepThread, getElem?_last, setPc, set_last, hk]
      simpa using ih Pc.loop (by simp)

/-- On a closed or cancelled limiter a call that runs alone returns
`ErrLimiterClosed` after at most two steps of `start`, with its unit rolled
back. -/
theorem Do_rejects (s : State) (fuel : Nat) (h : s.closed = true ∨ s.ctxDone = true)
    (hcr : s.crashed = false) :
    Do (fuel + 2) s
      = some ({ s with count := wrap32 (wrap32 (s.count + 1) - 1),
                       threads := s.threads ++ [Pc.rejected] },
              some LimiterError.ErrLimiterClosed) := by
  obtain ⟨L, c, cl, cx, cr, l⟩ := s
  simp only at h hcr
  subst hcr
  unfold Do
  rw [step_call rfl]
  simp only
  cases cl with
  | true =>
    simp [start, startReturned, stepThread, setPc]
  | false =>
    have hx : cx = true := by simpa using h
    subst hx
    cases fuel <;> simp [start, startReturned, stepThread, setPc]

/-- On an open limiter whose check passes on the count read after the initial
increment, a call that runs alone is admitted after five steps of `start`. -/
theorem Do_admits (s : State) (fuel : Nat) (h : isRunning s = true)
    (hk : limitKept s.limit (wrap32 (s.count + 1)) = true) (hcr : s.crashed = false) :
    Do (fuel + 5) s
      = some ({ s with count := wrap32 (wrap32 (s.count + 1) + 1),
                       threads := s.threads ++ [Pc.running] }, none) := by
  obtain ⟨L, c, cl, cx, cr, l⟩ := s
  simp only [isRunning, Bool.and_eq_true, beq_iff_eq] at h hk hcr
  obtain ⟨h1, h2⟩ := h
  subst hcr h1 h2
  unfold Do
  rw [step_call rfl]
  simp only
  cases fuel <;> simp [start, startReturned, stepThread, setPc, hk]

/-- On an open limiter whose check fails on the count read after the initial
increment, a call that runs alone never returns. -/
theorem Do_spins (s : State) (fuel : Nat) (h : isRunning s = true)
    (hk : limitKept s.limit (wrap32 (s.count + 1)) = false) (hcr : s.crashed = false) :
    Do fuel s = none := by
  obtain ⟨L, c, cl, cx, cr, l⟩ := s
  simp only [isRunning, Bool.and_eq_true, beq_iff_eq] at h hk hcr
  obtain ⟨h1, h2⟩ := h
  subst hcr h1 h2
  unfold Do
  rw [step_call rfl]
  simp only
  rw [start_spins L _ l hk fuel Pc.loop (by simp)]

end Parallel

/-! ## Limiter: calls entered after closure -/

namespace Parallel

theorem done_fields (s : State) :
    (done s).1.closed = s.closed ∧ (done s).1.ctxDone = s.ctxDone
      ∧ (done s).1.threads = s.threads ∧ (done s).1.limit = s.limit := by
  unfold done
  simp only
  split <;> exact ⟨rfl, rfl, rfl, rfl⟩

theorem turnedAway_mono (pc : Pc) (b : Bool) (h : pc.turnedAway b = true) :
    pc.turnedAway true = true := by
  cases pc <;> simp_all [Pc.turnedAway]

theorem shut_step {n : Nat} {s s' : State} {a : Action} (h : Shut n s)
    (hs : step s a = some s') : Shut n s' := by
  have hcr := step_crashed hs
  obtain ⟨hshut, hlate⟩ := h
  cases a with
  | call =>
    rw [step_call hcr] at hs
    simp only [Option.some.injEq] at hs
    subst hs
    refine ⟨hshut, ?_⟩
    intro j pc hj hpc
    simp only at hpc ⊢
    by_cases hlt : j < s.threads.length
    · rw [List.getElem?_append_left hlt] at hpc
      exact hlate j pc hj hpc
    · have hge : s.threads.length ≤ j := Nat.le_of_not_lt hlt
      rw [List.getElem?_append_right hge] at hpc
      cases hk : j - s.threads.length with
      | zero =>
        rw [hk] at hpc
        simp only [List.getElem?_cons_zero, Option.some.injEq] at hpc
        subst hpc
        rfl
      | succ k =>
        rw [hk] at hpc
        simp at hpc
  | close =>
    simp only [step, hcr, Close, Bool.false_eq_true, if_false, Option.some.injEq] at hs
    subst hs
    exact ⟨Or.inl rfl, hlate⟩
  | cancel =>
    simp only [step, hcr, Bool.false_eq_true, if_false, Option.some.injEq] at hs
    subst hs
    exact ⟨Or.inr rfl, fun j pc hj hpc => turnedAway_mono pc _ (hlate j pc hj hpc)⟩
  | watcher =>
    simp only [step, hcr, Bool.false_eq_true, if_false] at hs
    split at hs
    · simp only [Option.some.injEq] at hs
      subst hs
      exact ⟨Or.inl rfl, hlate⟩
    · exact absurd hs (by simp)
  | setParallelism m =>
    simp only [step, hcr, SetParallelism, Bool.false_eq_true, if_false] at hs
    split at hs
    · simp only [Option.some.injEq] at hs
      subst hs
      exact ⟨hshut, hlate⟩
    · exact absurd hs (by simp)
  | addParallelism d =>
    simp only [step, hcr, AddParallelism, Bool.false_eq_true, if_false] at hs
    split at hs
    · simp only [Option.some.injEq] at hs
      subst hs
      exact ⟨hshut, hlate⟩
    · exact absurd hs (by simp)
  | thread i =>
    rw [step_thread hcr] at hs
    cases hth : s.threads[i]? with
    | none => simp [stepThread, hth] at hs
    | some pc₀ =>
      have hilt : i < s.threads.length := by
        by_contra hne
        rw [List.getElem?_eq_none (Nat.le_of_not_lt hne)] at hth
        exact absurd hth (by simp)
      -- the shape of every thread step: shared flags kept, call `i` moved to `x`
      have key : ∀ (t : State) (x : Pc), t.closed = s.closed → t.ctxDone = s.ctxDone →
          t.threads = s.threads → (n ≤ i → x.turnedAway s.ctxDone = true) →
          Shut n (setPc t i x) := by
        intro t x hc hx ht hxi
        refine ⟨?_, ?_⟩
        · simp only [setPc, hc, hx]
          exact hshut
        · intro j pc hj hpc
          simp only [setPc, ht, hx] at hpc ⊢
          rw [List.getElem?_set] at hpc
          by_cases hij : i = j
          · subst hij
            simp only [if_true, hilt, Option.some.injEq] at hpc
            subst hpc
            exact hxi hj
          · simp only [hij, if_false] at hpc
            exact hlate j pc hj hpc
      have hpc₀ : n ≤ i → pc₀.turnedAway s.ctxDone = true := fun hni => hlate i pc₀ hni hth
      cases pc₀ with
      | loop =>
        simp only [stepThread, hth, Option.some.injEq] at hs
        subst hs
        split
        · exact key s _ rfl rfl rfl (fun _ => rfl)
        · rename_i hcl
          refine key s _ rfl rfl rfl (fun _ => ?_)
          rcases hshut with h | h
          · exact absurd h hcl
          · simp [Pc.turnedAway, h]
      | checkCtx =>
        simp only [stepThread, hth, Option.some.injEq] at hs
        subst hs
        split
        · exact key s _ rfl rfl rfl (fun _ => rfl)
        · rename_i hcx
          refine key s _ rfl rfl rfl (fun hni => ?_)
          have := hpc₀ hni
          simp only [Pc.turnedAway] at this
          exact absurd this hcx
      | loadLimit =>
        simp only [stepThread, hth, Option.some.injEq] at hs
        subst hs
        exact key s _ rfl rfl rfl (fun hni => absurd (hpc₀ hni) (by simp [Pc.turnedAway]))
      | loadCount l =>
        simp only [stepThread, hth, Option.some.injEq] at hs
        subst hs
        split <;>
          exact key s _ rfl rfl rfl (fun hni => absurd (hpc₀ hni) (by simp [Pc.turnedAway]))
      | cas c =>
        simp only [stepThread, hth, Option.some.injEq] at hs
        subst hs
        split
        · exact key _ _ rfl rfl rfl (fun hni => absurd (hpc₀ hni) (by simp [Pc.turnedAway]))
        · exact key s _ rfl rfl rfl (fun hni => absurd (hpc₀ hni) (by simp [Pc.turnedAway]))
      | rollback =>
        simp only [stepThread, hth, Option.some.injEq] at hs
        subst hs
        exact key _ _ rfl rfl rfl (fun _ => rfl)
      | running =>
        simp only [stepThread, hth, Option.some.injEq] at hs
        subst hs
        have hf := done_fields s
        exact key _ _ hf.1 hf.2.1 hf.2.2.1
          (fun hni => absurd (hpc₀ hni) (by simp [Pc.turnedAway]))
      | rejected => simp [stepThread, hth] at hs
      | finished => simp [stepThread, hth] at hs
      | panicked => simp [stepThread, hth] at hs

theorem shut_run {n : Nat} : ∀ (acts : List Action) (s s' : State), Shut n s →
    run s acts = some s' → Shut n s' := by
  intro acts
  induction acts with
  | nil =>
    intro s s' h hr
    simp only [run, Option.some.injEq] at hr
    subst hr
    exact h
  | cons a as ih =>
    intro s s' h hr
    simp only [run] at hr
    cases hst : step s a with
    | none => simp [hst] at hr
    | some s1 =>
      simp only [hst] at hr
      exact ih s1 s' (shut_step h hst) hr

theorem shut_of_closed (s : State) (h : s.closed = true ∨ s.ctxDone = true) :
    Shut s.threads.length s := by
  refine ⟨h, ?_⟩
  intro j pc hj hpc
  rw [List.getElem?_eq_none hj] at hpc
  exact absurd hpc (by simp)

end Parallel

/-! ## Limiter: schedules that cannot overflow the counter -/

namespace Parallel

theorem pending_add_admitted_le (l : List Pc) :
    l.countP Pc.isPending + l.countP Pc.isAdmitted ≤ l.length := by
  induction l with
  | nil => simp
  | cons pc t ih =>
    simp only [List.countP_cons, List.length_cons]
    cases pc <;> simp [Pc.isPending, Pc.isAdmitted] <;> omega

theorem fits_of_length (s : State) (h : 2 * s.threads.length ≤ 2147483647) : fits s := by
  unfold fits pendingCount admittedCount
  have := pending_add_admitted_le s.threads
  omega

theorem length_step {s s' : State} {a : Action} (hs : step s a = some s') :
    s'.threads.length = s.threads.length + (if a = Action.call then 1 else 0) := by
  have hcr := step_crashed hs
  cases a with
  | call =>
    rw [step_call hcr] at hs
    simp only [Option.some.injEq] at hs
    subst hs
    simp
  | close =>
    simp only [step, hcr, Close, Bool.false_eq_true, if_false, Option.some.injEq] at hs
    subst hs
    simp
  | cancel =>
    simp only [step, hcr, Bool.false_eq_true, if_false, Option.some.injEq] at hs
    subst hs
    simp
  | watcher =>
    simp only [step, hcr, Bool.false_eq_true, if_false] at hs
    split at hs
    · simp only [Option.some.injEq] at hs
      subst hs
      simp
    · exact absurd hs (by simp)
  | setParallelism m =>
    simp only [step, hcr, SetParallelism, Bool.false_eq_true, if_false] at hs
    split at hs
    · simp only [Option.some.injEq] at hs
      subst hs
      simp
    · exact absurd hs (by simp)
  | addParallelism d =>
    simp only [step, hcr, AddParallelism, Bool.false_eq_true, if_false] at hs
    split at hs
    · simp only [Option.some.injEq] at hs
      subst hs
      simp
    · exact absurd hs (by simp)
  | thread i =>
    rw [step_thread hcr] at hs
    have hset : ∀ (t : State) (x : Pc), t.threads = s.threads →
        (setPc t i x).threads.length = s.threads.length := by
      intro t x ht
      simp [setPc, ht]
    simp only [reduceCtorEq, if_false, Nat.add_zero]
    cases hth : s.threads[i]? with
    | none => simp [stepThread, hth] at hs
    | some pc =>
      cases pc <;> simp only [stepThread, hth, Option.some.injEq] at hs
      all_goals first
        | exact absurd hs (by simp)
        | (subst hs; split <;> exact hset _ _ rfl)
        | (subst hs; exact hset _ _ rfl)
        | (subst hs; exact hset _ _ (done_fields s).2.2.1)

/-- A schedule that starts with `n` calls on record and issues `k` more, with
`2 * (n + k)` within the `int32` range, never makes the units held exceed the
counter. -/
theorem fitsAlong_of_few_calls : ∀ (acts : List Action) (s : State),
    2 * (s.threads.length + acts.count Action.call) ≤ 2147483647 →
    fitsAlong s acts = true := by
  intro acts
  induction acts with
  | nil =>
    intro s h
    simp only [fitsAlong, decide_eq_true_eq]
    exact fits_of_length s (by simpa using h)
  | cons a as ih =>
    intro s h
    have hfit : fits s := by
      apply fits_of_length
      have : s.threads.length ≤ s.threads.length + (a :: as).count Action.call := by omega
      omega
    simp only [fitsAlong, Bool.and_eq_true, decide_eq_true_eq]
    refine ⟨hfit, ?_⟩
    cases hst : step s a with
    | none => rfl
    | some s1 =>
      simp only
      apply ih
      rw [length_step hst]
      rw [List.count_cons] at h
      by_cases hc : a = Action.call
      · subst hc
        simp only [if_true] at h ⊢
        simp only [beq_self_eq_true, if_true] at h
        omega
      · have hb : (a == Action.call) = false := by simpa using hc
        simp only [hc, if_false, hb, Bool.false_eq_true] at h ⊢
        omega

end Parallel

/-! ## Limiter: the bound on admitted tasks (C1) -/

namespace Parallel

/-- C1, amended: on a limiter created with a fixed limit `L ≥ 1`, along every
schedule of `Do` steps, completions, `Close` and cancellation on which the
units held by pending calls and admitted tasks never exceed the largest `int32`,
the number of tasks admitted and not yet completed is at most `L` in the state
reached. -/
theorem admitted_le_limit (L : Int) (acts : List Action) (s : State)
    (hL : 1 ≤ L) (hL32 : inInt32 L) (hk : acts.all Action.keepsLimit = true)
    (hr : run (NewParallel L) acts = some s)
    (hfit : fitsAlong (NewParallel L) acts = true) :
    (admittedCount s : Int) ≤ L :=
  (bounded_run hL hL32 acts (NewParallel L) s (balanced_new L) (bounded_new L hL) hk hr hfit).2.2.2

/-- C1, witness: the hand-over schedule on a limiter of limit 1. -/
theorem admitted_le_limit_witness :
    run (NewParallel 1) handOver = some handedOver
      ∧ fitsAlong (NewParallel 1) handOver = true
      ∧ (admittedCount handedOver : Int) ≤ 1 :=
  ⟨by decide, by decide,
    admitted_le_limit 1 handOver _ (by decide) (by decide) (by decide) (by decide) (by decide)⟩

/-- C1, counterexample: with limit 1, once 2^31 callers have entered `Do` the
`int32` counter has wrapped to a negative value, the check `count < 2*limit`
passes for each of them, and two tasks are admitted at the same time. -/
theorem admitted_exceeds_limit_after_overflow :
    (List.replicate 2147483648 Action.call ++ admitTwo).all Action.keepsLimit = true
      ∧ run (NewParallel 1) (List.replicate 2147483648 Action.call ++ admitTwo)
          = some { limit := 1, count := -2147483646, closed := false, ctxDone := false,
                   crashed := false,
                   threads := Pc.running :: Pc.running :: List.replicate 2147483646 Pc.loop }
      ∧ admittedCount { limit := 1, count := -2147483646, closed := false, ctxDone := false,
                        crashed := false,
                        threads := Pc.running :: Pc.running :: List.replicate 2147483646 Pc.loop }
          = 2 := by
  refine ⟨?_, run_overflow_admitTwo, ?_⟩
  · rw [List.all_append, List.all_replicate]
    decide
  · unfold admittedCount
    simp only [List.countP_cons, List.countP_replicate, Pc.isAdmitted]
    decide

end Parallel

/-! ## Limiter: the counter never goes negative (C9) -/

namespace Parallel

/-- C9, amended: along every schedule of `Do` steps, completions of admitted
tasks, `Close`, cancellation, `SetParallelism` and `AddParallelism` on which the
units held by pending calls and admitted tasks never exceed the largest `int32`,
the counter equals the number of pending calls plus twice the number of
admitted tasks not yet completed, is not negative, no `done` has panicked, and
the `done` of any admitted task would not panic. -/
theorem counter_balanced (limit : Int) (acts : List Action) (s : State)
    (hr : run (NewParallel limit) acts = some s)
    (hfit : fitsAlong (NewParallel limit) acts = true) :
    s.count = (pendingCount s : Int) + 2 * (admittedCount s : Int)
      ∧ 0 ≤ s.count
      ∧ s.crashed = false
      ∧ Pc.panicked ∉ s.threads
      ∧ ∀ i : Nat, s.threads[i]? = some Pc.running → (done s).2 = false := by
  have hb := balanced_run acts (NewParallel limit) s (balanced_new limit) hr hfit
  obtain ⟨hc, hcr, hp⟩ := hb
  refine ⟨hc, by omega, hcr, hp, ?_⟩
  intro i hi
  have hA := countP_set_int Pc.isAdmitted s.threads i Pc.running Pc.finished hi
  have hpos : (0 : Int) ≤ (List.countP Pc.isAdmitted (s.threads.set i Pc.finished) : Int) :=
    Int.natCast_nonneg _
  have hfits : fits s := by
    have hlast : ∀ (xs : List Action) (u v : State), run u xs = some v →
        fitsAlong u xs = true → fits v := by
      intro xs
      induction xs with
      | nil =>
        intro u v hu hf
        simp only [run, Option.some.injEq] at hu
        subst hu
        exact fits_of_fitsAlong hf
      | cons a as ih =>
        intro u v hu hf
        simp only [run] at hu
        cases hst : step u a with
        | none => simp [hst] at hu
        | some u1 =>
          simp only [hst] at hu
          simp only [fitsAlong, hst, Bool.and_eq_true] at hf
          exact ih u1 v hu hf.2
    exact hlast acts _ _ hr hfit
  unfold fits at hfits
  unfold pendingCount admittedCount at hc hfits
  simp only [Pc.isAdmitted] at hA
  have hnn : ¬ wrap32 (s.count - 2) < 0 := by
    unfold wrap32
    simp at hA
    omega
  simp [done, hnn]

/-- C9, witness: the hand-over schedule on a limiter of limit 1. -/
theorem counter_balanced_witness :
    run (NewParallel 1) handOver = some handedOver
      ∧ fitsAlong (NewParallel 1) handOver = true
      ∧ handedOver.count
          = (pendingCount handedOver : Int) + 2 * (admittedCount handedOver : Int) :=
  ⟨by decide, by decide, (counter_balanced 1 handOver _ (by decide) (by decide)).1⟩

/-- C9, counterexample: after 2^31 callers have entered `Do` on a fresh limiter
the counter is negative although 2^31 calls are pending; when two of them are
then admitted and the first task completes, its `done` panics with
`ErrNegativeCount`. -/
theorem counter_negative_after_overflow :
    (run (NewParallel 1) (List.replicate 2147483648 Action.call)
        = some { limit := 1, count := -2147483648, closed := false, ctxDone := false,
                 crashed := false,
                 threads := Pc.loop :: Pc.loop :: List.replicate 2147483646 Pc.loop })
      ∧ pendingCount { limit := 1, count := -2147483648, closed := false, ctxDone := false,
                       crashed := false,
                       threads := Pc.loop :: Pc.loop :: List.replicate 2147483646 Pc.loop }
          = 2147483648
      ∧ (run (NewParallel 1)
            (List.replicate 2147483648 Action.call ++ admitTwo ++ [Action.thread 0])
          = some { limit := 1, count := -2147483648, closed := false, ctxDone := false,
                   crashed := true,
                   threads := Pc.panicked :: Pc.running
                                :: List.replicate 2147483646 Pc.loop }) := by
  refine ⟨run_calls_overflow, ?_, ?_⟩
  · unfold pendingCount
    simp only [List.countP_cons, List.countP_replicate, Pc.isPending]
    decide
  · rw [run_append, run_overflow_admitTwo, Option.bind,
      run_done_panics 1 (-2147483646) _ (by decide)]
    have hw : wrap32 (-2147483646 - 2) = -2147483648 := by decide
    rw [hw]

end Parallel

/-! ## Limiter: closed means closed (C2) -/

namespace Parallel

/-- C2: on a limiter whose closed flag is set or whose cancellation token has
fired, `Do` returns `ErrLimiterClosed` once `start` has taken at most two steps,
the call ends rejected and is not admitted (the task is not started), and the
counter, the limit and the closed flag are what they were before the call; and
whatever else goes on at the same time, no call that enters `Do` from then on
is ever admitted. -/
theorem Do_closed (s : State) (fuel : Nat) (h : s.closed = true ∨ s.ctxDone = true)
    (h32 : inInt32 s.count) (hcr : s.crashed = false) :
    Do (fuel + 2) s
        = some ({ s with threads := s.threads ++ [Pc.rejected] },
                some LimiterError.ErrLimiterClosed)
      ∧ admittedCount { s with threads := s.threads ++ [Pc.rejected] } = admittedCount s
      ∧ ∀ (acts : List Action) (s' : State) (j : Nat), run s acts = some s' →
          s.threads.length ≤ j → s'.threads[j]? ≠ some Pc.running := by
  refine ⟨?_, ?_, ?_⟩
  · rw [Do_rejects s fuel h hcr]
    have hc : wrap32 (wrap32 (s.count + 1) - 1) = s.count := by
      unfold inInt32 at h32
      unfold wrap32
      omega
    rw [hc]
  · simp [admittedCount, List.countP_append, Pc.isAdmitted]
  · intro acts s' j hr hj hpc
    have := (shut_run acts s s' (shut_of_closed s h) hr).2 j Pc.running hj hpc
    simp [Pc.turnedAway] at this

/-- C2, witness: `Do` on a limiter with one running task, after `Close`. -/
theorem Do_closed_witness :
    Do 2 (Close oneRunning)
      = some ({ Close oneRunning with threads := [Pc.running, Pc.rejected] },
              some LimiterError.ErrLimiterClosed) :=
  (Do_closed (Close oneRunning) 0 (Or.inl rfl) (by decide) rfl).1

end Parallel

/-! ## Limiter: `Do` spins while the limit is reached (C7) -/

namespace Parallel

theorem limitKept_iff (m c : Int) :
    limitKept m c = true ↔ (m < 1 ∨ c < wrap32 (m * 2)) := by
  simp [limitKept]

theorem limitKept_iff_of_lt (m c : Int) (hm : m < 1073741824) :
    limitKept m c = true ↔ (m < 1 ∨ c < 2 * m) := by
  rw [limitKept_iff]
  by_cases h : m < 1
  · simp [h]
  · have hw : wrap32 (m * 2) = 2 * m := by
      unfold wrap32
      omega
    rw [hw]

/-- C7, amended: a call of `Do` that runs alone, no other goroutine changing
the state: on a closed or cancelled limiter it returns `ErrLimiterClosed`
within two steps of `start`; on an open limiter whose limit is below 2^30 it
returns nil within five steps of `start` when the limit is below 1 or the
counter after the initial increment is below twice the limit, and it does not
return, however many steps it takes, when the limit is at least 1 and the
counter after the initial increment has reached twice the limit. Nothing is
stated of an open limiter whose limit is 2^30 or more. -/
theorem Do_returns_or_spins (s : State) (hcr : s.crashed = false) :
    (isRunning s = false → ∀ fuel : Nat,
        (Do (fuel + 2) s).map Prod.snd = some (some LimiterError.ErrLimiterClosed))
      ∧ (isRunning s = true → s.limit < 1073741824 →
          (s.limit < 1 ∨ wrap32 (s.count + 1) < 2 * s.limit) →
          ∀ fuel : Nat, (Do (fuel + 5) s).map Prod.snd = some none)
      ∧ (isRunning s = true → s.limit < 1073741824 →
          1 ≤ s.limit → 2 * s.limit ≤ wrap32 (s.count + 1) →
          ∀ fuel : Nat, Do fuel s = none) := by
  refine ⟨?_, ?_, ?_⟩
  · intro h fuel
    have h' : s.closed = true ∨ s.ctxDone = true := by
      unfold isRunning at h
      cases hc : s.closed <;> cases hx : s.ctxDone <;> simp [hc, hx] at h ⊢
    rw [Do_rejects s fuel h' hcr]
    rfl
  · intro h hlim hk fuel
    rw [Do_admits s fuel h ((limitKept_iff_of_lt _ _ hlim).mpr hk) hcr]
    rfl
  · intro h hlim h1 hk fuel
    have hnot : limitKept s.limit (wrap32 (s.count + 1)) = false := by
      cases hv : limitKept s.limit (wrap32 (s.count + 1)) with
      | false => rfl
      | true =>
        rcases (limitKept_iff_of_lt _ _ hlim).mp hv with h0 | h0 <;> omega
    exact Do_spins s fuel h hnot hcr

/-- C7, witness: with limit 1 and one task running, `Do` has not returned after
a thousand steps. -/
theorem Do_returns_or_spins_witness : Do 1000 oneRunning = none :=
  (Do_returns_or_spins oneRunning rfl).2.2 (by decide) (by decide) (by decide) (by decide) 1000

/-- C7, counterexample: the state with limit 1 and one task running is reached
by one call of `Do`; a second call of `Do` in it returns after no number of its
own steps. -/
theorem Do_blocks_when_limit_reached :
    run (NewParallel 1) admitOne = some oneRunning
      ∧ ¬ ∃ fuel : Nat, (Do fuel oneRunning).isSome = true := by
  refine ⟨by decide, ?_⟩
  rintro ⟨fuel, hf⟩
  rw [Do_spins oneRunning fuel (by decide) (by decide) rfl] at hf
  simp at hf

end Parallel

/-! ## Limiter: resizing (C8) -/

namespace Parallel

/-- C8: `SetParallelism(n)` makes the limit `n`, `AddParallelism(d)` makes it the
old limit plus `d` wrapped to `int32`, and both leave the counter, the closed
flag and the calls in flight as they are; `isLimitKept` then admits exactly
when the new limit is below 1 or the count is below twice the new limit as
long as the new limit is below 2^30. At the failing input, `SetParallelism` of
1073741824 on a fresh limiter, the counter 0 is below twice the limit and yet
`isLimitKept` does not admit, `limit*2` having wrapped to a negative `int32`,
and a call of `Do` never returns. -/
theorem resize_then_isLimitKept (s : State) (n d : Int) :
    (CurrentLimit (SetParallelism s n) = n
        ∧ (SetParallelism s n).count = s.count
        ∧ (SetParallelism s n).closed = s.closed
        ∧ (SetParallelism s n).threads = s.threads)
      ∧ (CurrentLimit (AddParallelism s d) = wrap32 (s.limit + d)
        ∧ (AddParallelism s d).count = s.count
        ∧ (AddParallelism s d).closed = s.closed
        ∧ (AddParallelism s d).threads = s.threads)
      ∧ (n < 1073741824 →
          ((isLimitKept (SetParallelism s n)).2 = true ↔ (n < 1 ∨ s.count < 2 * n)))
      ∧ (wrap32 (s.limit + d) < 1073741824 →
          ((isLimitKept (AddParallelism s d)).2 = true
            ↔ (wrap32 (s.limit + d) < 1 ∨ s.count < 2 * wrap32 (s.limit + d))))
      ∧ (CurrentLimit (SetParallelism (NewParallel 1) 1073741824) = 1073741824
        ∧ (SetParallelism (NewParallel 1) 1073741824).count = 0
        ∧ (0 : Int) < 2 * 1073741824
        ∧ isLimitKept (SetParallelism (NewParallel 1) 1073741824) = (0, false)
        ∧ ¬ ∃ fuel : Nat,
            (Do fuel (SetParallelism (NewParallel 1) 1073741824)).isSome = true) := by
  refine ⟨⟨rfl, rfl, rfl, rfl⟩, ⟨rfl, rfl, rfl, rfl⟩, ?_, ?_, rfl, rfl, by decide, by decide, ?_⟩
  · intro hn
    exact limitKept_iff_of_lt n s.count hn
  · intro hd
    exact limitKept_iff_of_lt (wrap32 (s.limit + d)) s.count hd
  · rintro ⟨fuel, hf⟩
    rw [Do_spins _ fuel (by decide) (by decide) rfl] at hf
    simp at hf

end Parallel

/-! ## Limiter: releases without admission (C10) -/

namespace Parallel

/-- What holds after `k` calls of `done` from a state with `r` admitted tasks and
no pending call, no caller entering `Do`. -/
theorem move_released {r k : Nat} {t t' : State} {m : Move} (hr : 2 * (r : Int) ≤ 2147483647)
    (hp : pendingCount t = 0)
    (hc : t.crashed = false → t.count = 2 * (r : Int) - 2 * (k : Int) ∧ k ≤ r)
    (hno : m.noCall = true) (hm : move t m = some t') :
    pendingCount t' = 0
      ∧ (t'.crashed = false →
          t'.count = 2 * (r : Int) - 2 * ((k + if m.isDone then 1 else 0 : Nat) : Int)
            ∧ (k + if m.isDone then 1 else 0) ≤ r)
      ∧ (t'.crashed = true → (k + if m.isDone then 1 else 0) = r + 1) := by
  have hcr : t.crashed = false := by
    cases m with
    | act a => exact step_crashed hm
    | release =>
      cases h : t.crashed with
      | false => rfl
      | true => simp [move, h] at hm
  obtain ⟨hcnt, hk⟩ := hc hcr
  -- a call of `done` on `t`
  have hdone : ((done t).1.crashed = false →
        (done t).1.count = 2 * (r : Int) - 2 * ((k + 1 : Nat) : Int) ∧ k + 1 ≤ r)
      ∧ ((done t).1.crashed = true → k + 1 = r + 1)
      ∧ ((done t).2 = (done t).1.crashed) := by
    have hw : wrap32 (t.count - 2) = t.count - 2 := by
      unfold wrap32
      omega
    unfold done
    simp only [hw]
    split
    · rename_i hneg
      refine ⟨fun h => by simp at h, fun _ => by omega, rfl⟩
    · rename_i hnn
      refine ⟨fun _ => ⟨by push_cast; omega, by omega⟩, fun h => ?_, ?_⟩
      · rw [hcr] at h
        exact absurd h (by simp)
      · simp [hcr]
  cases m with
  | release =>
    simp only [move, hcr, Bool.false_eq_true, if_false, Option.some.injEq] at hm
    subst hm
    simp only [Move.isDone, if_true]
    refine ⟨?_, hdone.1, hdone.2.1⟩
    unfold pendingCount
    rw [(done_fields t).2.2.1]
    exact hp
  | act a =>
    simp only [move] at hm
    cases a with
    | call => simp [Move.noCall] at hno
    | close =>
      simp only [step, hcr, Close, Bool.false_eq_true, if_false, Option.some.injEq] at hm
      subst hm
      simp only [Move.isDone, Bool.false_eq_true, if_false, Nat.add_zero]
      exact ⟨hp, fun _ => ⟨hcnt, hk⟩, fun h => by simp [hcr] at h⟩
    | cancel =>
      simp only [step, hcr, Bool.false_eq_true, if_false, Option.some.injEq] at hm
      subst hm
      simp only [Move.isDone, Bool.false_eq_true, if_false, Nat.add_zero]
      exact ⟨hp, fun _ => ⟨hcnt, hk⟩, fun h => by simp [hcr] at h⟩
    | watcher =>
      simp only [step, hcr, Bool.false_eq_true, if_false] at hm
      split at hm
      · simp only [Option.some.injEq] at hm
        subst hm
        simp only [Move.isDone, Bool.false_eq_true, if_false, Nat.add_zero]
        exact ⟨hp, fun _ => ⟨hcnt, hk⟩, fun h => by simp [hcr] at h⟩
      · exact absurd hm (by simp)
    | setParallelism n =>
      simp only [step, hcr, SetParallelism, Bool.false_eq_true, if_false] at hm
      split at hm
      · simp only [Option.some.injEq] at hm
        subst hm
        simp only [Move.isDone, Bool.false_eq_true, if_false, Nat.add_zero]
        exact ⟨hp, fun _ => ⟨hcnt, hk⟩, fun h => by simp [hcr] at h⟩
      · exact absurd hm (by simp)
    | addParallelism d =>
      simp only [step, hcr, AddParallelism, Bool.false_eq_true, if_false] at hm
      split at hm
      · simp only [Option.some.injEq] at hm
        subst hm
        simp only [Move.isDone, Bool.false_eq_true, if_false, Nat.add_zero]
        exact ⟨hp, fun _ => ⟨hcnt, hk⟩, fun h => by simp [hcr] at h⟩
      · exact absurd hm (by simp)
    | thread i =>
      rw [step_thread hcr] at hm
      simp only [Move.isDone, if_true]
      cases hth : t.threads[i]? with
      | none => simp [stepThread, hth] at hm
      | some pc =>
        have hP := fun (x : Pc) => countP_set_int Pc.isPending t.threads i pc x hth
        have hnotp : pc.isPending = false := by
          cases hpc : pc.isPending with
          | false => rfl
          | true =>
            have h1 := hP Pc.finished
            have hpos : (0 : Int) ≤ (List.countP Pc.isPending (t.threads.set i Pc.finished) : Int) :=
              Int.natCast_nonneg _
            unfold pendingCount at hp
            rw [hpc, hp] at h1
            simp only [Pc.isPending, Nat.cast_zero, if_true, Bool.false_eq_true,
              if_false] at h1
            omega
        cases pc with
        | running =>
          simp only [stepThread, hth, Option.some.injEq] at hm
          subst hm
          have hf := done_fields t
          refine ⟨?_, ?_, ?_⟩
          · have hx : (if (done t).2 = true then Pc.panicked else Pc.finished).isPending
                = false := by
              split <;> rfl
            have h1 := hP (if (done t).2 = true then Pc.panicked else Pc.finished)
            unfold pendingCount at hp ⊢
            simp only [setPc, hf.2.2.1]
            rw [hx, hp] at h1
            simp only [hnotp, Nat.cast_zero, Bool.false_eq_true, if_false] at h1
            omega
          · intro h
            exact hdone.1 h
          · intro h
            exact hdone.2.1 h
        | loop => simp [Pc.isPending] at hnotp
        | checkCtx => simp [Pc.isPending] at hnotp
        | loadLimit => simp [Pc.isPending] at hnotp
        | loadCount l => simp [Pc.isPending] at hnotp
        | cas c => simp [Pc.isPending] at hnotp
        | rollback => simp [Pc.isPending] at hnotp
        | rejected => simp [stepThread, hth] at hm
        | finished => simp [stepThread, hth] at hm
        | panicked => simp [stepThread, hth] at hm

theorem play_released {r : Nat} (hr : 2 * (r : Int) ≤ 2147483647) :
    ∀ (ms : List Move) (k : Nat) (t t' : State), pendingCount t = 0 →
      (t.crashed = false → t.count = 2 * (r : Int) - 2 * (k : Int) ∧ k ≤ r) →
      (t.crashed = true → k = r + 1) →
      ms.all Move.noCall = true → play t ms = some t' →
      (t'.crashed = false → k + ms.countP Move.isDone ≤ r)
        ∧ (t'.crashed = true → k + ms.countP Move.isDone = r + 1) := by
  intro ms
  induction ms with
  | nil =>
    intro k t t' _ hc hx _ hplay
    simp only [play, Option.some.injEq] at hplay
    subst hplay
    simp only [List.countP_nil, Nat.add_zero]
    exact ⟨fun h => (hc h).2, hx⟩
  | cons m rest ih =>
    intro k t t' hp hc hx hno hplay
    simp only [List.all_cons, Bool.and_eq_true] at hno
    simp only [play] at hplay
    cases hm : move t m with
    | none => simp [hm] at hplay
    | some t₁ =>
      simp only [hm] at hplay
      obtain ⟨hp₁, hc₁, hx₁⟩ := move_released hr hp hc hno.1 hm
      have := ih (k + if m.isDone then 1 else 0) t₁ t' hp₁ hc₁ hx₁ hno.2 hplay
      rw [List.countP_cons]
      have e : k + (List.countP Move.isDone rest + if m.isDone = true then 1 else 0)
          = (k + if m.isDone = true then 1 else 0) + List.countP Move.isDone rest := by omega
      rw [e]
      exact this

theorem play_releases : ∀ (r : Nat) (t : State), t.crashed = false →
    t.count = 2 * (r : Int) → 2 * (r : Int) ≤ 2147483647 →
    ∃ t', play t (List.replicate (r + 1) Move.release) = some t' ∧ t'.crashed = true := by
  intro r
  induction r with
  | zero =>
    intro t hcr hc _
    have hneg : wrap32 (t.count - 2) < 0 := by
      unfold wrap32
      simp at hc
      omega
    refine ⟨(done t).1, ?_, ?_⟩
    · simp [play, move, hcr]
    · simp [done, hneg]
  | succ k ih =>
    intro t hcr hc hle
    have hw : wrap32 (t.count - 2) = 2 * (k : Int) := by
      unfold wrap32
      push_cast at hc hle
      omega
    have hnn : ¬ wrap32 (t.count - 2) < 0 := by
      rw [hw]
      omega
    have hd : (done t).1 = { t with count := wrap32 (t.count - 2) } := by
      simp [done, hnn]
    obtain ⟨t', ht', hx⟩ := ih (done t).1 (by rw [hd]; exact hcr) (by rw [hd]; exact hw)
      (by push_cast at hle; omega)
    refine ⟨t', ?_, hx⟩
    rw [List.replicate_succ]
    simp only [play, move, hcr, Bool.false_eq_true, if_false]
    exact ht'

/-- C10, amended: in a state with `r` admitted tasks and no pending call of `Do`,
whose counter holds two units per admitted task without overflow, as long as
no caller enters `Do`, whatever the interleaving of calls of `done` (made
directly or by admitted tasks that complete) with `Close`, cancellation,
`SetParallelism` and `AddParallelism`: at most `r + 1` calls of `done` take place,
and the process has panicked with `ErrNegativeCount` exactly when the
`(r + 1)`-th has; and `r + 1` releases in a row do take place and end in that
panic. -/
theorem extra_release_panics (s s' : State) (ms : List Move)
    (hbal : s.count = (pendingCount s : Int) + 2 * (admittedCount s : Int))
    (hp : pendingCount s = 0) (hfit : fits s) (hcr : s.crashed = false)
    (hno : ms.all Move.noCall = true) (hplay : play s ms = some s') :
    ms.countP Move.isDone ≤ admittedCount s + 1
      ∧ (s'.crashed = true ↔ ms.countP Move.isDone = admittedCount s + 1)
      ∧ ∃ s'', play s (List.replicate (admittedCount s + 1) Move.release) = some s''
          ∧ s''.crashed = true := by
  unfold fits at hfit
  rw [hp] at hbal hfit
  simp only [Nat.cast_zero, zero_add] at hbal hfit
  have h := play_released hfit ms 0 s s' hp
    (fun _ => ⟨by simpa using hbal, Nat.zero_le _⟩)
    (fun h => by rw [hcr] at h; exact absurd h (by simp)) hno hplay
  simp only [Nat.zero_add] at h
  refine ⟨?_, ⟨h.2, ?_⟩, play_releases _ s hcr hbal hfit⟩
  · cases hx : s'.crashed with
    | false => have := h.1 hx; omega
    | true => have := h.2 hx; omega
  · intro hk
    cases hx : s'.crashed with
    | true => rfl
    | false => have := h.1 hx; omega

/-- C10, witness: one admitted task and no pending call; a release, `Close`, and
a second release, which panics. -/
theorem extra_release_panics_witness :
    play oneRunning [Move.release, Move.act Action.close, Move.release]
        = some { limit := 1, count := -2, closed := true, ctxDone := false, crashed := true,
                 threads := [Pc.running] }
      ∧ [Move.release, Move.act Action.close, Move.release].countP Move.isDone
          = admittedCount oneRunning + 1 :=
  ⟨by decide,
   ((extra_release_panics oneRunning
      { limit := 1, count := -2, closed := true, ctxDone := false, crashed := true,
        threads := [Pc.running] }
      [Move.release, Move.act Action.close, Move.release]
      (by decide) (by decide) (by decide) rfl (by decide) (by decide)).2.1).mp rfl⟩

/-- C10, counterexample: with two callers in `Do` and none admitted, one release,
which no admission matches, brings the counter from 2 to 0 and does not panic;
with one task running and one call pending, a release, the admission of the
pending call and a second release leave the counter at 0 with no panic. -/
theorem extra_release_absorbed :
    (play (NewParallel 1) [Move.act Action.call, Move.act Action.call] = some twoPending
        ∧ pendingCount twoPending = 2 ∧ admittedCount twoPending = 0
        ∧ play twoPending [Move.release] = some { twoPending with count := 0 })
      ∧ (play (NewParallel 1) (admitOne.map Move.act ++ [Move.act Action.call])
            = some onePending
        ∧ pendingCount onePending = 1 ∧ admittedCount onePending = 1
        ∧ play onePending releaseTwice
            = some { limit := 1, count := 0, closed := false, ctxDone := false,
                     crashed := false, threads := [Pc.running, Pc.running] }) := by
  decide

end Parallel

/-! ## Error log: maps -/

namespace Failure

theorem GoMap.get?_set_self {ν : Type} (m : GoMap ν) (k : String) (v : ν) :
    (m.set k v).get? k = some v := by
  induction m with
  | nil => simp [GoMap.set, GoMap.get?]
  | cons p t ih =>
    obtain ⟨k', v'⟩ := p
    by_cases h : k' = k
    · simp [GoMap.set, GoMap.get?, h]
    · simp [GoMap.set, GoMap.get?, h, ih]

theorem GoMap.get?_set_ne {ν : Type} (m : GoMap ν) (k c : String) (v : ν) (hne : c ≠ k) :
    (m.set k v).get? c = m.get? c := by
  have hkc : ¬ k = c := fun h => hne h.symm
  induction m with
  | nil => simp [GoMap.set, GoMap.get?, hkc]
  | cons p t ih =>
    obtain ⟨k', v'⟩ := p
    by_cases h : k' = k
    · subst h
      simp [GoMap.set, GoMap.get?, hkc]
    · by_cases hc : k' = c
      · subst hc
        simp [GoMap.set, GoMap.get?, h]
      · simp [GoMap.set, GoMap.get?, h, hc, ih]

theorem GoMap.mem_keys_iff {ν : Type} (m : GoMap ν) (c : String) :
    c ∈ m.keys ↔ (m.get? c).isSome = true := by
  induction m with
  | nil => simp [GoMap.keys, GoMap.get?]
  | cons p t ih =>
    obtain ⟨k', v'⟩ := p
    by_cases h : k' = c
    · simp [GoMap.keys, GoMap.get?, h]
    · have h' : ¬ c = k' := fun e => h e.symm
      simp only [GoMap.keys, List.map_cons, List.mem_cons, h', false_or, GoMap.get?, h,
        if_false]
      exact ih

theorem GoMap.keys_set_present {ν : Type} (m : GoMap ν) (k : String) (v : ν)
    (h : (m.get? k).isSome = true) : (m.set k v).keys = m.keys := by
  induction m with
  | nil => simp [GoMap.get?] at h
  | cons p t ih =>
    obtain ⟨k', v'⟩ := p
    by_cases hk : k' = k
    · simp [GoMap.set, GoMap.keys, hk]
    · simp only [GoMap.get?, hk, if_false] at h
      have := ih h
      simp only [GoMap.keys] at this
      simp [GoMap.set, GoMap.keys, hk, this]

theorem GoMap.keys_set_absent {ν : Type} (m : GoMap ν) (k : String) (v : ν)
    (h : m.get? k = none) : (m.set k v).keys = m.keys ++ [k] := by
  induction m with
  | nil => simp [GoMap.set, GoMap.keys]
  | cons p t ih =>
    obtain ⟨k', v'⟩ := p
    by_cases hk : k' = k
    · simp [GoMap.get?, hk] at h
    · simp only [GoMap.get?, hk, if_false] at h
      have := ih h
      simp only [GoMap.keys] at this
      simp [GoMap.set, GoMap.keys, hk, this]

theorem GoMap.nodup_keys_set {ν : Type} (m : GoMap ν) (k : String) (v : ν)
    (hnd : m.keys.Nodup) : (m.set k v).keys.Nodup := by
  cases hg : m.get? k with
  | none =>
    rw [GoMap.keys_set_absent m k v hg]
    have hnot : k ∉ m.keys := by
      rw [GoMap.mem_keys_iff, hg]
      simp
    rw [List.nodup_append]
    refine ⟨hnd, List.nodup_singleton k, ?_⟩
    intro a ha hb
    simp only [List.mem_singleton] at hb
    subst hb
    exact hnot ha
  | some w =>
    rw [GoMap.keys_set_present m k v (by simp [hg])]
    exact hnd

end Failure

/-! ## Error log: `Messages` and `Count` -/

namespace Failure

theorem GoMap.sum_set_present {ν : Type} (wt : ν → Nat) (m : GoMap ν) (k : String) (v w : ν)
    (h : m.get? k = some w) :
    ((m.set k v).map (fun p => wt p.2)).sum + wt w = (m.map (fun p => wt p.2)).sum + wt v := by
  induction m with
  | nil => simp [GoMap.get?] at h
  | cons p t ih =>
    obtain ⟨k', v'⟩ := p
    by_cases hk : k' = k
    · simp only [GoMap.get?, hk, if_true, Option.some.injEq] at h
      subst h
      simp only [GoMap.set, hk, if_true, List.map_cons, List.sum_cons]
      omega
    · simp only [GoMap.get?, hk, if_false] at h
      have := ih h
      simp only [GoMap.set, hk, if_false, List.map_cons, List.sum_cons]
      omega

theorem GoMap.sum_set_absent {ν : Type} (wt : ν → Nat) (m : GoMap ν) (k : String) (v : ν)
    (h : m.get? k = none) :
    ((m.set k v).map (fun p => wt p.2)).sum = (m.map (fun p => wt p.2)).sum + wt v := by
  induction m with
  | nil => simp [GoMap.set]
  | cons p t ih =>
    obtain ⟨k', v'⟩ := p
    by_cases hk : k' = k
    · simp [GoMap.get?, hk] at h
    · simp only [GoMap.get?, hk, if_false] at h
      have := ih h
      simp only [GoMap.set, hk, if_false, List.map_cons, List.sum_cons]
      omega

theorem messagesOf_step {ε : Type} (code : ε → String) (Error : ε → Option String)
    (text : ε → String) (xs : List ε) (m : GoMap (List String)) (e : ε)
    (hE : Error e = some (text e)) (h : MessagesOf code text xs m) :
    ∃ m', messagesStep code Error m e = some m' ∧ MessagesOf code text (xs ++ [e]) m' := by
  obtain ⟨hnd, hget, hsum⟩ := h
  unfold messagesStep
  cases hg : m.get? (code e) with
  | none =>
    simp only [hE, Option.map_some']
    have hnot : code e ∉ xs.map code := by
      intro hmem
      have := hget (code e)
      rw [hg, if_pos hmem] at this
      exact absurd this (by simp)
    refine ⟨_, rfl, GoMap.nodup_keys_set m _ _ hnd, ?_, ?_⟩
    · intro c
      by_cases hc : c = code e
      · subst hc
        rw [GoMap.get?_set_self]
        have hfil : xs.filter (fun x => decide (code x = code e)) = [] := by
          rw [List.filter_eq_nil_iff]
          intro a ha
          simp only [decide_eq_true_eq]
          intro hx
          exact hnot (List.mem_map.mpr ⟨a, ha, hx⟩)
        simp [List.filter_append, hfil, List.filter_cons]
      · rw [GoMap.get?_set_ne m _ c _ hc, hget c]
        have hce : ¬ code e = c := fun h' => hc h'.symm
        simp [List.filter_append, List.filter_cons, hce, hc]
    · rw [GoMap.sum_set_absent (fun l : List String => l.length) m _ _ hg, hsum]
      simp
  | some msgs =>
    simp only [hE, Option.map_some']
    have hmsgs : msgs = (xs.filter (fun x => decide (code x = code e))).map text := by
      have := hget (code e)
      rw [hg] at this
      by_cases hmem : code e ∈ xs.map code
      · rw [if_pos hmem] at this
        exact Option.some.inj this
      · rw [if_neg hmem] at this
        exact absurd this (by simp)
    refine ⟨_, rfl, GoMap.nodup_keys_set m _ _ hnd, ?_, ?_⟩
    · intro c
      by_cases hc : c = code e
      · subst hc
        rw [GoMap.get?_set_self, hmsgs]
        simp [List.filter_append, List.filter_cons]
      · rw [GoMap.get?_set_ne m _ c _ hc, hget c]
        have hce : ¬ code e = c := fun h' => hc h'.symm
        simp [List.filter_append, List.filter_cons, hce, hc]
    · have := GoMap.sum_set_present (fun l : List String => l.length) m (code e)
        (msgs ++ [text e]) msgs hg
      simp only [List.length_append, List.length_singleton] at this ⊢
      omega

theorem messagesOf_loop {ε : Type} (code : ε → String) (Error : ε → Option String)
    (text : ε → String) :
    ∀ (ys xs : List ε) (m : GoMap (List String)), (∀ e ∈ ys, Error e = some (text e)) →
      MessagesOf code text xs m →
      ∃ m', messagesLoop code Error ys m = some m' ∧ MessagesOf code text (xs ++ ys) m' := by
  intro ys
  induction ys with
  | nil => intro xs m _ h; exact ⟨m, rfl, by simpa using h⟩
  | cons y t ih =>
    intro xs m hE h
    obtain ⟨m₁, hm₁, hof⟩ :=
      messagesOf_step code Error text xs m y (hE y (List.mem_cons_self y t)) h
    obtain ⟨m', hm', hof'⟩ :=
      ih (xs ++ [y]) m₁ (fun e he => hE e (List.mem_cons_of_mem y he)) hof
    refine ⟨m', ?_, by simpa using hof'⟩
    simp only [messagesLoop, hm₁]
    exact hm'

theorem countOf_step {ε : Type} (code : ε → String) (xs : List ε) (m : GoMap Int) (e : ε)
    (hlen : (xs ++ [e]).length ≤ 9223372036854775807) (h : CountOf code xs m) :
    CountOf code (xs ++ [e]) (countStep code m e) := by
  obtain ⟨hnd, hget⟩ := h
  unfold countStep
  cases hg : m.get? (code e) with
  | none =>
    simp only
    have hnot : code e ∉ xs.map code := by
      intro hmem
      have := hget (code e)
      rw [hg, if_pos hmem] at this
      exact absurd this (by simp)
    refine ⟨GoMap.nodup_keys_set m _ _ hnd, ?_⟩
    intro c
    by_cases hc : c = code e
    · subst hc
      rw [GoMap.get?_set_self]
      have h0 : (xs.map code).count (code e) = 0 := List.count_eq_zero.mpr hnot
      simp [List.count_append, h0]
    · rw [GoMap.get?_set_ne m _ c _ hc, hget c]
      have hce : ¬ code e = c := fun h' => hc h'.symm
      simp [List.count_append, List.count_cons, hce, hc]
  | some n =>
    simp only
    have hn : n = (((xs.map code).count (code e) : Nat) : Int) := by
      have := hget (code e)
      rw [hg] at this
      by_cases hmem : code e ∈ xs.map code
      · rw [if_pos hmem] at this
        exact Option.some.inj this
      · rw [if_neg hmem] at this
        exact absurd this (by simp)
    have hle : (xs.map code).count (code e) ≤ xs.length := by
      have := List.count_le_length (code e) (xs.map code)
      simpa using this
    have hw : wrap64 (n + 1) = (((xs.map code).count (code e) + 1 : Nat) : Int) := by
      simp only [List.length_append, List.length_singleton] at hlen
      rw [hn]
      unfold wrap64
      push_cast
      omega
    refine ⟨GoMap.nodup_keys_set m _ _ hnd, ?_⟩
    intro c
    by_cases hc : c = code e
    · subst hc
      rw [GoMap.get?_set_self, hw]
      simp [List.count_append]
    · rw [GoMap.get?_set_ne m _ c _ hc, hget c]
      have hce : ¬ code e = c := fun h' => hc h'.symm
      simp [List.count_append, List.count_cons, hce, hc]

theorem countOf_foldl {ε : Type} (code : ε → String) :
    ∀ (ys xs : List ε) (m : GoMap Int), (xs ++ ys).length ≤ 9223372036854775807 →
      CountOf code xs m → CountOf code (xs ++ ys) (ys.foldl (countStep code) m) := by
  intro ys
  induction ys with
  | nil => intro xs m _ h; simpa using h
  | cons y t ih =>
    intro xs m hlen h
    have hlen1 : (xs ++ [y]).length ≤ 9223372036854775807 := by
      simp only [List.length_append, List.length_cons, List.length_nil] at hlen ⊢
      omega
    have hlen2 : ((xs ++ [y]) ++ t).length ≤ 9223372036854775807 := by
      simpa using hlen
    have := ih (xs ++ [y]) _ hlen2 (countOf_step code xs m y hlen1 h)
    simpa using this

end Failure

/-! ## Error log: `Messages` groups by code (C4) -/

namespace Failure

/-- C4, amended: on a log for every entry of which the call `err.Error()`
returns, `Messages` returns a map; the map has each key once, its keys are
exactly the codes of the entries of the log, the value at a code is the list of
the `Error()` texts of the entries classified under it, in the order of the
log, and the lengths of the values add up to the length of the log. -/
theorem Messages_groups {ε : Type} (GetErrorCode : ε → String) (Error : ε → Option String)
    (text : ε → String) (s : Errors ε) (hE : ∀ e ∈ s.errors, Error e = some (text e)) :
    ∃ m, Messages GetErrorCode Error s = some m
      ∧ m.keys.Nodup
      ∧ (∀ c, c ∈ m.keys ↔ c ∈ s.errors.map GetErrorCode)
      ∧ (∀ c, c ∈ s.errors.map GetErrorCode →
          m.get? c = some ((s.errors.filter (fun e => decide (GetErrorCode e = c))).map text))
      ∧ (m.map (fun p => p.2.length)).sum = s.errors.length := by
  have h0 : MessagesOf GetErrorCode text [] [] := by
    simp [MessagesOf, GoMap.keys, GoMap.get?]
  obtain ⟨m, hm, h⟩ := messagesOf_loop GetErrorCode Error text s.errors [] [] hE h0
  simp only [List.nil_append] at h
  obtain ⟨hnd, hget, hsum⟩ := h
  refine ⟨m, hm, hnd, ?_, ?_, hsum⟩
  · intro c
    rw [GoMap.mem_keys_iff, hget c]
    by_cases hc : c ∈ s.errors.map GetErrorCode <;> simp [hc]
  · intro c hc
    rw [hget c, if_pos hc]

/-- C4, witness: the sample log, classified A, A, B. -/
theorem Messages_groups_witness :
    ∃ m, Messages sampleCode (fun e => some (sampleText e)) sampleLog = some m
      ∧ m.get? "A" = some ["first", "second"] ∧ m.get? "B" = some ["third"] := by
  obtain ⟨m, hm, _, _, hget, _⟩ :=
    Messages_groups sampleCode (fun e => some (sampleText e)) sampleText sampleLog
      (fun _ _ => rfl)
  exact ⟨m, hm, hget "A" (by decide), hget "B" (by decide)⟩

/-- C4, counterexample: the nil error is added to a fresh log, received and
appended by the collector, and the queue is closed; on the log that results
`Messages` panics, whereas `Count` returns its tally. -/
theorem Messages_panics_on_nil :
    run (NewErrors (Option String))
        [Event.collector, Event.add none, Event.collector, Event.close, Event.collector]
        = some nilLogged
      ∧ Messages nilCode id nilLogged = none
      ∧ Count nilCode nilLogged = [("unknown", 1)] := by
  refine ⟨by decide, by decide, by decide⟩

end Failure

/-! ## Error log: `Count` tallies by code (C5) -/

namespace Failure

/-- C5: for a log no longer than the largest Go `int`, the map returned by
`Count` has each key once, its keys are exactly the codes of the entries of the
log, and the value at a code is the number of entries classified under it,
which is at least 1; a log whose three entries are classified A, A, B gives
exactly the entries A: 2 and B: 1. -/
theorem Count_tallies {ε : Type} (GetErrorCode : ε → String) (s : Errors ε)
    (hlen : s.errors.length ≤ 9223372036854775807) :
    (Count GetErrorCode s).keys.Nodup
      ∧ (∀ c, c ∈ (Count GetErrorCode s).keys ↔ c ∈ s.errors.map GetErrorCode)
      ∧ (∀ c, c ∈ s.errors.map GetErrorCode →
          (Count GetErrorCode s).get? c
              = some (((s.errors.map GetErrorCode).count c : Nat) : Int)
            ∧ 1 ≤ (s.errors.map GetErrorCode).count c)
      ∧ (∀ (t : Errors ε) (e₁ e₂ e₃ : ε), t.errors = [e₁, e₂, e₃] →
          GetErrorCode e₁ = "A" → GetErrorCode e₂ = "A" → GetErrorCode e₃ = "B" →
          Count GetErrorCode t = [("A", 2), ("B", 1)]) := by
  have h0 : CountOf GetErrorCode [] [] := by
    simp [CountOf, GoMap.keys, GoMap.get?]
  have h := countOf_foldl GetErrorCode s.errors [] [] (by simpa using hlen) h0
  simp only [List.nil_append] at h
  obtain ⟨hnd, hget⟩ := h
  refine ⟨hnd, ?_, ?_, ?_⟩
  · intro c
    rw [GoMap.mem_keys_iff]
    unfold Count
    rw [hget c]
    by_cases hc : c ∈ s.errors.map GetErrorCode <;> simp [hc]
  · intro c hc
    refine ⟨?_, ?_⟩
    · unfold Count
      rw [hget c, if_pos hc]
    · exact List.count_pos_iff.mpr hc
  · intro t e₁ e₂ e₃ ht h1 h2 h3
    unfold Count
    rw [ht]
    simp [countStep, GoMap.get?, GoMap.set, h1, h2, h3, wrap64]

/-- C5, witness: the sample log, classified A, A, B. -/
theorem Count_tallies_witness :
    Count sampleCode sampleLog = [("A", 2), ("B", 1)] :=
  (Count_tallies sampleCode sampleLog (by decide)).2.2.2 sampleLog 0 1 2 rfl rfl rfl rfl

end Failure

/-! ## Error log: `Add` after `Done` (C6) -/

namespace Failure

theorem Done_returns {ε : Type} (s : Errors ε) :
    ∃ d, Done s = some d ∧ d.closed = true ∧ ∀ e, d.collector ≠ Collector.holding e := by
  unfold Done Wait closeQueue
  cases h : s.collector with
  | idle => exact ⟨_, rfl, rfl, by simp [h]⟩
  | ranging => exact ⟨_, rfl, rfl, by simp⟩
  | holding err => exact ⟨_, rfl, rfl, by simp⟩
  | exited => exact ⟨_, rfl, rfl, by simp [h]⟩

theorem Add_closed {ε : Type} (s : Errors ε) (e : ε) (h : s.closed = true) :
    Add s e = some (s, AddOutcome.recovered) := by
  simp [Add, h]

/-- Once the queue is closed and the collector holds nothing, no event changes
the log. -/
theorem run_closed {ε : Type} : ∀ (evs : List (Event ε)) (s s' : Errors ε),
    s.closed = true → (∀ e, s.collector ≠ Collector.holding e) → run s evs = some s' →
    s'.errors = s.errors := by
  intro evs
  induction evs with
  | nil =>
    intro s s' _ _ hr
    simp only [run, Option.some.injEq] at hr
    rw [hr]
  | cons ev t ih =>
    intro s s' hc hh hr
    simp only [run] at hr
    cases hst : step s ev with
    | none => simp [hst] at hr
    | some s1 =>
      simp only [hst] at hr
      have key : s1.errors = s.errors ∧ s1.closed = true
          ∧ ∀ e, s1.collector ≠ Collector.holding e := by
        cases ev with
        | add err =>
          simp only [step, Add_closed s err hc, Option.map_some', Option.some.injEq] at hst
          subst hst
          exact ⟨rfl, hc, hh⟩
        | collector =>
          simp only [step, collect] at hst
          cases hcol : s.collector with
          | idle =>
            simp only [hcol, Option.some.injEq] at hst
            subst hst
            exact ⟨rfl, hc, by simp⟩
          | ranging =>
            simp only [hcol, hc, if_true, Option.some.injEq] at hst
            subst hst
            exact ⟨rfl, rfl, by simp⟩
          | holding err => exact absurd hcol (hh err)
          | exited => simp [hcol] at hst
        | close =>
          simp only [step, closeQueue, Option.some.injEq] at hst
          subst hst
          exact ⟨rfl, rfl, hh⟩
      rw [ih s1 s' key.2.1 key.2.2 hr, key.1]

theorem run_adds_closed {ε : Type} : ∀ (es : List ε) (s : Errors ε), s.closed = true →
    run s (es.map Event.add) = some s := by
  intro es
  induction es with
  | nil => intro s _; rfl
  | cons e t ih =>
    intro s hc
    simp only [List.map_cons, run, step, Add_closed s e hc, Option.map_some']
    exact ih s hc

/-- C6: `Done` returns; in the state it returns in, every `Add` returns, having
recovered the panic of the send on the closed queue, and leaves the state as
it is; so does any sequence of such calls; and whatever producers, the
collector and further closures do from there, the log, `Messages` and `Count`
stay what they were when `Done` returned. -/
theorem Add_after_Done {ε : Type} (GetErrorCode : ε → String) (Error : ε → Option String)
    (s : Errors ε) :
    ∃ d, Done s = some d
      ∧ (∀ e, Add d e = some (d, AddOutcome.recovered))
      ∧ (∀ es : List ε, run d (es.map Event.add) = some d)
      ∧ (∀ (evs : List (Event ε)) (s' : Errors ε), run d evs = some s' →
          s'.errors = d.errors
            ∧ Messages GetErrorCode Error s' = Messages GetErrorCode Error d
            ∧ Count GetErrorCode s' = Count GetErrorCode d) := by
  obtain ⟨d, hd, hc, hh⟩ := Done_returns s
  refine ⟨d, hd, fun e => Add_closed _ e hc, fun es => run_adds_closed es _ hc, ?_⟩
  intro evs s' hr
  have he := run_closed evs d s' hc hh hr
  refine ⟨he, ?_, ?_⟩
  · unfold Messages
    rw [he]
  · unfold Count
    rw [he]

end Failure

/-! ## Worker: bounded mode (C3) -/

namespace WorkerPkg

theorem limitedLoop_all {σ : Type} (L : LimiterOps σ) (ctx : Nat → Bool)
    (hctx : ∀ k, ctx k = false) :
    ∀ (n i : Nat) (r : Run σ),
      (limitedLoop L ctx n i r).2 = false
        ∧ (limitedLoop L ctx n i r).1.submitted
            = r.submitted ++ (List.range' i n).map (fun j : Nat => (j : Int))
        ∧ (limitedLoop L ctx n i r).1.limiter
            = (List.range' i n).foldl (fun l (j : Nat) => (L.Do l (j : Int)).1) r.limiter
        ∧ ((∀ l i, (L.Do l i).2 = true) →
            (limitedLoop L ctx n i r).1.started
              = r.started ++ (List.range' i n).map (fun j : Nat => (j : Int)))
        ∧ ((∀ l i, (L.Do l i).2 = false) →
            (limitedLoop L ctx n i r).1.started = r.started) := by
  intro n
  induction n with
  | zero => intro i r; simp [limitedLoop]
  | succ k ih =>
    intro i r
    have h := ih (i + 1) (submit L r (i : Int))
    simp only [limitedLoop, hctx, Bool.false_eq_true, if_false]
    refine ⟨h.1, ?_, ?_, ?_, ?_⟩
    · rw [h.2.1]
      simp [submit, List.range'_succ]
    · rw [h.2.2.1]
      simp [submit, List.range'_succ]
    · intro hopen
      rw [h.2.2.2.1 hopen]
      simp [submit, hopen, List.range'_succ]
    · intro hshut
      rw [h.2.2.2.2 hshut]
      simp [submit, hshut]

theorem count_range_cast (n : Nat) (i : Int) :
    ((List.range n).map (fun j : Nat => (j : Int))).count i
      = if 0 ≤ i ∧ i < (n : Int) then 1 else 0 := by
  have hnd : ((List.range n).map (fun j : Nat => (j : Int))).Nodup :=
    (List.nodup_range n).map (fun a b h => by exact_mod_cast h)
  by_cases h : 0 ≤ i ∧ i < (n : Int)
  · rw [if_pos h]
    apply List.count_eq_one_of_mem hnd
    rw [List.mem_map]
    refine ⟨i.toNat, ?_, ?_⟩
    · rw [List.mem_range]
      omega
    · omega
  · rw [if_neg h]
    apply List.count_eq_zero_of_not_mem
    rw [List.mem_map]
    rintro ⟨j, hj, rfl⟩
    rw [List.mem_range] at hj
    apply h
    omega

/-- C3: a worker whose iteration count is `N`, `1 ≤ N ≤ 2^31 - 1` (the count that
`WithLoopCount(N)` stores) and whose token never fires takes the bounded branch
of `Process`; `Process` returns, having called `Do` on the worker's limiter,
after `Reset`, with the tasks of indices `0, 1, ..., N - 1` in this order, each
call on the limiter the call before left, and no other, and then `Wait` and
`Close`; when the limiter starts every task it is given, the work function is
called with exactly these indices, once each (and with none when the limiter
starts no task). -/
theorem Process_bounded {σ : Type} (L : LimiterOps σ) (w : Worker σ) (ctx : Nat → Bool)
    (fuel : Nat) (N : Int) (hN : w.count = N) (h1 : 1 ≤ N) (h32 : N ≤ 2147483647)
    (hctx : ∀ k, ctx k = false) :
    (WithLoopCount N w).count = N
      ∧ Process fuel L ctx w = some (processLimited L ctx w N)
      ∧ (processLimited L ctx w N).submitted
          = (List.range N.toNat).map (fun j : Nat => (j : Int))
      ∧ (processLimited L ctx w N).submitted.length = N.toNat
      ∧ (processLimited L ctx w N).worker.limiter
          = some (L.Close (L.Wait
              ((List.range N.toNat).foldl (fun l (j : Nat) => (L.Do l (j : Int)).1)
                (L.Reset (w.limiter.getD (L.NewWorkerLimiter w.parallelism))))))
      ∧ (processLimited L ctx w N).worker.count = w.count
      ∧ (processLimited L ctx w N).worker.parallelism = w.parallelism
      ∧ ((∀ l i, (L.Do l i).2 = true) →
          (processLimited L ctx w N).started
              = (List.range N.toNat).map (fun j : Nat => (j : Int))
            ∧ ∀ i : Int, (processLimited L ctx w N).started.count i
                = if 0 ≤ i ∧ i < N then 1 else 0)
      ∧ ((∀ l i, (L.Do l i).2 = false) → (processLimited L ctx w N).started = []) := by
  have hloop := limitedLoop_all L ctx hctx N.toNat 0
    { limiter := L.Reset (getLimiter L w).2, submitted := [], started := [] }
  simp only [List.nil_append, ← List.range_eq_range'] at hloop
  have hsub : (processLimited L ctx w N).submitted
      = (List.range N.toNat).map (fun j : Nat => (j : Int)) := by
    simp only [processLimited, hctx, Bool.false_eq_true, if_false]
    exact hloop.2.1
  have hget : (getLimiter L w).2 = w.limiter.getD (L.NewWorkerLimiter w.parallelism)
      ∧ (getLimiter L w).1.count = w.count
      ∧ (getLimiter L w).1.parallelism = w.parallelism := by
    unfold getLimiter
    cases w.limiter <;> exact ⟨rfl, rfl, rfl⟩
  refine ⟨?_, ?_, hsub, ?_, ?_, ?_, ?_, ?_, ?_⟩
  · simp only [WithLoopCount]
    exact Parallel.wrap32_eq_self ⟨by omega, h32⟩
  · have : ¬ N < 1 := by omega
    simp only [Process, hN, this, if_false]
  · rw [hsub]
    simp
  · simp only [processLimited, hctx, Bool.false_eq_true, if_false, hloop.1, hloop.2.2.1]
    rw [hget.1]
  · simp only [processLimited, hctx, Bool.false_eq_true, if_false]
    exact hget.2.1
  · simp only [processLimited, hctx, Bool.false_eq_true, if_false]
    exact hget.2.2
  · intro hopen
    have hst : (processLimited L ctx w N).started
        = (List.range N.toNat).map (fun j : Nat => (j : Int)) := by
      simp only [processLimited, hctx, Bool.false_eq_true, if_false]
      exact hloop.2.2.2.1 hopen
    refine ⟨hst, ?_⟩
    intro i
    rw [hst, count_range_cast]
    have hcast : ((N.toNat : Nat) : Int) = N := by omega
    rw [hcast]
  · intro hshut
    simp only [processLimited, hctx, Bool.false_eq_true, if_false]
    exact hloop.2.2.2.2 hshut

/-- C3, witness: three iterations on a limiter that starts and records every
task. -/
theorem Process_bounded_witness :
    (Process 0 recorder never (WithLoopCount 3 (NewWorker (List Int)))).map
        (fun out => (out.submitted, out.started, out.worker.limiter))
      = some ([0, 1, 2], [0, 1, 2], some [0, 1, 2]) := by
  have h := Process_bounded recorder (WithLoopCount 3 (NewWorker (List Int))) never 0 3
    (by decide) (by decide) (by decide) (fun _ => rfl)
  rw [h.2.1]
  decide

end WorkerPkg
